import Mathlib

/-!
Verification of the `serde_pipe` incremental byte-pipe library.

The repository exposes two backends:

* `src/buffer.rs` — the eager backend: a `Serializer` that materialises one
  value's complete framed encoding (an 8-byte little-endian length prefix
  followed by the payload) into an owned buffer and serves it byte by byte,
  and a `Deserializer` that accumulates bytes, parses the prefix, and decodes
  once `len` bytes have arrived.
* `src/fringe.rs` — the suspendable backend: the bincode encode/decode
  routine runs on a libfringe coroutine that suspends after producing /
  before consuming each byte; the public `Serializer`/`Deserializer` drive
  the coroutine and track `done`/`pending`/`mid` flags and a one-byte
  look-ahead slot.

The external codec (serde + bincode) is out of scope of the repository and is
modelled abstractly: a `Codec` packages the encode function together with a
deterministic streaming decoder (a step machine consuming one byte at a
time — exactly the interface `bincode::deserialize_from` presents to the
`Read` implementations in both source files), plus the single correctness
fact the spec assumes of it: decoding the bytes of `encode v` consumes
exactly those bytes and yields `v`.

The coroutine in `fringe.rs` is embedded by its observable protocol: every
suspension point of the generator closures (`SerializerInner::new`,
`DeserializerInner::new`) becomes a constructor of a small state type
(`SInner`, `DInner`), and each driver call (`push`/`next`/`done`/`retrieve`/
`empty`/`into_stack`/`Kill`) becomes a function on that type whose result is
read off the corresponding `resume`/`suspend` exchange in the source.
Panics (failed `assert!`s, `unwrap`s, the generator's protocol `panic!`s)
are modelled as `Except.error`.
-/

set_option linter.unusedVariables false
set_option linter.unusedSectionVars false

namespace SerdePipe

/-- Run a streaming decoder step machine over a list of bytes.
Returns the decoded value and the number of bytes consumed, or `none` if the
input is exhausted before the decoder finishes (an `UnexpectedEof`). -/
def decodeSteps {σ α : Type} (step : σ → Nat → σ ⊕ α) : σ → List Nat → Option (α × Nat)
  | _, [] => none
  | s, b :: bs =>
    match step s b with
    | Sum.inl s' => (decodeSteps step s' bs).map (fun p => (p.1, p.2 + 1))
    | Sum.inr a => some (a, 1)

/-- Abstract model of the external serde+bincode codec for one Rust type `α`
(the spec's "Codec" collaborator, assumed correct and deterministic).
`dzero` is `some v` exactly when the decoder returns without reading any
byte (a zero-byte encoding, e.g. the unit type); otherwise the decoder is
the step machine `dstep` started at `dinit`. -/
structure Codec (α : Type) : Type 1 where
  DState : Type
  dinit : DState
  dzero : Option α
  dstep : DState → Nat → DState ⊕ α
  encode : α → List Nat
  correct : ∀ v : α,
    if encode v = [] then dzero = some v
    else dzero = none ∧ decodeSteps dstep dinit (encode v) = some (v, (encode v).length)

/-- `bincode::deserialize_from` on a byte source: immediate return for
zero-byte decoders, otherwise run the step machine. Yields the value and
the count of bytes consumed (the `ReadCounter`/`Counter` wrappers in the
source). -/
def Codec.decode {α : Type} (c : Codec α) (bs : List Nat) : Option (α × Nat) :=
  match c.dzero with
  | some a => some (a, 0)
  | none => decodeSteps c.dstep c.dinit bs

theorem Codec.decode_encode_nil {α : Type} (c : Codec α) (v : α) (h : c.encode v = []) :
    c.dzero = some v := by
  have := c.correct v
  rw [if_pos h] at this
  exact this

theorem Codec.decode_encode_cons {α : Type} (c : Codec α) (v : α) (h : c.encode v ≠ []) :
    c.dzero = none ∧ decodeSteps c.dstep c.dinit (c.encode v) = some (v, (c.encode v).length) := by
  have := c.correct v
  rw [if_neg h] at this
  exact this

/-- The bincode encoding of a `usize` length: 8 little-endian base-256
digits (bincode 1.x default fixed-width native-word encoding). -/
def encodeUsizeAux : Nat → Nat → List Nat
  | 0, _ => []
  | k + 1, n => (n % 256) :: encodeUsizeAux k (n / 256)

def encodeUsize (n : Nat) : List Nat := encodeUsizeAux 8 n

/-- Little-endian read-back of a byte list as an unsigned integer (the
`bincode::deserialize_from::<_, usize>` call in `Deserializer::push`). -/
def decodeUsizeList : List Nat → Nat
  | [] => 0
  | b :: bs => b % 256 + 256 * decodeUsizeList bs

theorem encodeUsizeAux_length (k n : Nat) : (encodeUsizeAux k n).length = k := by
  induction k generalizing n with
  | zero => rfl
  | succ k ih => simp [encodeUsizeAux, ih]

theorem encodeUsize_length (n : Nat) : (encodeUsize n).length = 8 :=
  encodeUsizeAux_length 8 n

theorem mod_mul_decomp (n b c : Nat) : n % (b * c) = b * (n / b % c) + n % b := by
  conv_lhs => rw [← Nat.div_add_mod (n % (b * c)) b]
  rw [← Nat.mod_mul_right_div_self n b c, Nat.mod_mod_of_dvd n (dvd_mul_right b c)]

theorem decode_encodeUsizeAux (k n : Nat) :
    decodeUsizeList (encodeUsizeAux k n) = n % 256 ^ k := by
  induction k generalizing n with
  | zero => simp [encodeUsizeAux, decodeUsizeList, Nat.mod_one]
  | succ k ih =>
    simp only [encodeUsizeAux, decodeUsizeList, ih]
    rw [Nat.mod_mod_of_dvd n (dvd_refl 256), pow_succ', mod_mul_decomp n 256 (256 ^ k)]
    omega

theorem decode_encodeUsize (n : Nat) (h : n < 2 ^ 64) :
    decodeUsizeList (encodeUsize n) = n := by
  have h2 : (256 : Nat) ^ 8 = 2 ^ 64 := by norm_num
  rw [encodeUsize, decode_encodeUsizeAux, h2, Nat.mod_eq_of_lt h]

/-! ## Concrete codecs (for witnesses and concrete scenarios)

`u8Codec` is bincode's `u8` codec: one byte, passed through. `unitCodec` is
bincode's `()` codec: zero bytes. `pairCodec` is bincode's `(u8, u8)` codec:
two bytes. -/

def u8Codec : Codec Nat where
  DState := Unit
  dinit := ()
  dzero := none
  dstep := fun _ b => Sum.inr b
  encode := fun v => [v]
  correct := by intro v; simp [decodeSteps]

def unitCodec : Codec Unit where
  DState := Unit
  dinit := ()
  dzero := some ()
  dstep := fun _ _ => Sum.inr ()
  encode := fun _ => []
  correct := by intro v; simp

def pairCodec : Codec (Fin 256 × Fin 256) where
  DState := Option Nat
  dinit := none
  dzero := none
  dstep := fun s b =>
    match s with
    | none => Sum.inl (some b)
    | some a => Sum.inr (⟨a % 256, Nat.mod_lt _ (by norm_num)⟩, ⟨b % 256, Nat.mod_lt _ (by norm_num)⟩)
  encode := fun p => [p.1.val, p.2.val]
  correct := by
    rintro ⟨a, b⟩
    refine ⟨rfl, ?_⟩
    simp only [decodeSteps, Option.map_some', List.length_cons, List.length_nil]
    congr 3
    · exact Fin.ext (Nat.mod_eq_of_lt a.isLt)
    · exact Fin.ext (Nat.mod_eq_of_lt b.isLt)

/-! ## Eager backend (`src/buffer.rs`)

`Serializer` holds `buffer: Option<(Box<[u8]>, usize)>`; `Deserializer`
holds the accumulation buffer, the parsed frame length, and the pinned
`TypeId` (modelled as an index `i : ι` into a family of codecs, since
distinct Rust types have distinct `TypeId`s).

Rust `FnOnce` closures returned by the operations are modelled by their
(pure) results: `Option (…)` mirrors the `Option<impl FnOnce…>`, and a
closure that can panic is modelled as an `Except String` result. -/

namespace Buffer

structure Serializer where
  buffer : Option (List Nat × Nat)
deriving DecidableEq, Repr

/-- `Serializer::new` -/
def Serializer.new : Serializer := ⟨none⟩

/-- `Serializer::push_avail` -/
def Serializer.push_avail (s : Serializer) : Bool := s.buffer.isNone

/-- The body of the `FnOnce(T)` closure returned by `Serializer::push`:
`vec = [0u8; 8]`, `bincode::serialize_into(&mut vec, &t)` appends the
payload, a zero-length payload is replaced by the single sentinel byte `0`
with `len = 1`, and the first 8 bytes are overwritten with the bincode
encoding of `len`. -/
def Serializer.pushRun {β : Type} (c : Codec β) (s : Serializer) (t : β) : Serializer :=
  let payload := c.encode t
  let len := payload.length
  let (len, payload) := if len = 0 then (1, payload ++ [0]) else (len, payload)
  ⟨some (encodeUsize len ++ payload, 0)⟩

/-- `Serializer::push` -/
def Serializer.push {β : Type} (c : Codec β) (s : Serializer) : Option (β → Serializer) :=
  if s.buffer.isNone then some (fun t => s.pushRun c t) else none

/-- `Serializer::pull_avail` -/
def Serializer.pull_avail (s : Serializer) : Bool := s.buffer.isSome

/-- The body of the `FnOnce() -> u8` closure returned by `Serializer::pull`:
read `buffer[index]`, advance the cursor, clear the buffer when the cursor
reaches the end. `none` is the panic branch (`unwrap` of an absent buffer,
or the out-of-bounds indexing `buffer[*index]`). -/
def Serializer.pullRun (s : Serializer) : Option (Nat × Serializer) :=
  match s.buffer with
  | none => none
  | some (buf, idx) =>
    match buf.get? idx with
    | none => none
    | some b => some (b, ⟨if idx + 1 = buf.length then none else some (buf, idx + 1)⟩)

/-- `Serializer::pull` -/
def Serializer.pull (s : Serializer) : Option (Option (Nat × Serializer)) :=
  if s.buffer.isSome then some s.pullRun else none

/-- `Serializer::empty_avail` -/
def Serializer.empty_avail (s : Serializer) : Bool := s.buffer.isSome

/-- The body of the closure returned by `Serializer::empty`. -/
def Serializer.emptyRun (s : Serializer) : Serializer := ⟨none⟩

/-- `Serializer::empty` -/
def Serializer.empty (s : Serializer) : Option Serializer :=
  if s.buffer.isSome then some (s.emptyRun) else none

/-- `impl Drop for Serializer`: `assert!(self.buffer.is_none())`. -/
def Serializer.dropOk (s : Serializer) : Bool := s.buffer.isNone

/-- States of the eager `Serializer` reachable through its public API. -/
inductive Serializer.Reach : Serializer → Prop
  | new : Serializer.Reach Serializer.new
  | push {β : Type} (c : Codec β) (t : β) {s : Serializer} :
      Serializer.Reach s → s.buffer.isNone = true → Serializer.Reach (s.pushRun c t)
  | pull {s : Serializer} {b : Nat} {s' : Serializer} :
      Serializer.Reach s → s.pullRun = some (b, s') → Serializer.Reach s'
  | empty {s : Serializer} :
      Serializer.Reach s → s.buffer.isSome = true → Serializer.Reach s.emptyRun

structure Deserializer (ι : Type) where
  buffer : List Nat
  len : Nat
  deserializer : Option ι

/-- `Deserializer::new` -/
def Deserializer.new {ι : Type} : Deserializer ι := ⟨[], 0, none⟩

/-- `Deserializer::pull_avail` -/
def Deserializer.pull_avail {ι : Type} (d : Deserializer ι) : Bool :=
  d.len != 0 && d.buffer.length == d.len

section FamilyB

variable {ι : Type} [DecidableEq ι] {A : ι → Type} (C : ∀ i, Codec (A i))

/-- The body of the `FnOnce() -> T` closure returned by `Deserializer::pull`:
`bincode::deserialize_from` on the accumulated buffer through a
`ReadCounter`; on a zero-byte decode the count is bumped to 1 and
`self.buffer[0]` is asserted to be the sentinel `0`; the count is asserted
to equal `self.len`; the pipe is reset. Failed asserts and a failed decode
(`unwrap`) are `Except.error`. -/
def Deserializer.pullRun (i : ι) (d : Deserializer ι) : Except String (A i × Deserializer ι) :=
  match (C i).decode d.buffer with
  | none => .error "bincode decode failed"
  | some (ret, n) =>
    if n = 0 then
      match d.buffer.get? 0 with
      | some 0 =>
        if 1 = d.len then .ok (ret, Deserializer.new) else .error "assert len"
      | _ => .error "assert sentinel"
    else
      if n = d.len then .ok (ret, Deserializer.new) else .error "assert len"

/-- The unconditional statement at the head of `Deserializer::pull`:
record the `TypeId` on first use
(`if self.deserializer.is_none() { self.deserializer = Some(deserializer) }`). -/
def Deserializer.pinState (i : ι) (d : Deserializer ι) : Deserializer ι :=
  if d.deserializer.isNone then { d with deserializer := some i } else d

/-- `Deserializer::pull`: records the `TypeId` on first use, asserts it
matches from then on (`assert_eq!(self.deserializer.unwrap(), deserializer)`),
and hands out the claim closure iff a full frame is buffered. The returned
pair is (state after the call, the optional closure's result). -/
def Deserializer.pull (i : ι) (d : Deserializer ι) :
    Except String (Deserializer ι × Option (Except String (A i × Deserializer ι))) :=
  match (Deserializer.pinState i d).deserializer with
  | none => .error "unwrap"
  | some j =>
    if j = i then
      if (Deserializer.pinState i d).len ≠ 0 ∧
          (Deserializer.pinState i d).buffer.length = (Deserializer.pinState i d).len then
        .ok (Deserializer.pinState i d, some (Deserializer.pullRun C i (Deserializer.pinState i d)))
      else
        .ok (Deserializer.pinState i d, none)
    else .error "assert type mismatch"

end FamilyB

/-- `Deserializer::push_avail` -/
def Deserializer.push_avail {ι : Type} (d : Deserializer ι) : Bool :=
  d.deserializer.isSome && (d.buffer.length != d.len || d.len == 0)

/-- The body of the `FnOnce(u8)` closure returned by `Deserializer::push`:
append the byte; once the first 8 bytes (the `usize` prefix) are complete,
parse them as the frame length and clear the buffer. -/
def Deserializer.pushRun {ι : Type} (d : Deserializer ι) (x : Nat) : Deserializer ι :=
  let buf := d.buffer ++ [x]
  if d.len = 0 ∧ buf.length = 8 then
    { d with buffer := [], len := decodeUsizeList buf }
  else
    { d with buffer := buf }

/-- `Deserializer::push` -/
def Deserializer.push {ι : Type} (d : Deserializer ι) : Option (Nat → Deserializer ι) :=
  if d.deserializer.isSome ∧ (d.buffer.length ≠ d.len ∨ d.len = 0) then
    some (fun x => d.pushRun x)
  else none

/-- `Deserializer::empty_avail` -/
def Deserializer.empty_avail {ι : Type} (d : Deserializer ι) : Bool :=
  !d.buffer.isEmpty || d.len != 0 || d.deserializer.isSome

/-- The body of the closure returned by `Deserializer::empty`. -/
def Deserializer.emptyRun {ι : Type} (d : Deserializer ι) : Deserializer ι := ⟨[], 0, none⟩

/-- `Deserializer::empty` -/
def Deserializer.empty {ι : Type} (d : Deserializer ι) : Option (Deserializer ι) :=
  if ¬d.buffer.isEmpty ∨ d.len ≠ 0 ∨ d.deserializer.isSome then some d.emptyRun else none

/-- `impl Drop for Deserializer`:
`assert!(self.buffer.is_empty() && self.len == 0 && self.deserializer.is_none())`. -/
def Deserializer.dropOk {ι : Type} (d : Deserializer ι) : Bool :=
  d.buffer.isEmpty && d.len == 0 && d.deserializer.isNone

/-- States of the eager `Deserializer` reachable through its public API
(bytes pushed are `u8`s, hence `< 256`). -/
inductive Deserializer.Reach {ι : Type} [DecidableEq ι] {A : ι → Type} (C : ∀ i, Codec (A i)) :
    Deserializer ι → Prop
  | new : Deserializer.Reach C Deserializer.new
  | pullDecline {i : ι} {d d' : Deserializer ι} :
      Deserializer.Reach C d → Deserializer.pull C i d = .ok (d', none) →
      Deserializer.Reach C d'
  | pullKeep {i : ι} {d d' : Deserializer ι} {r : Except String (A i × Deserializer ι)} :
      Deserializer.Reach C d → Deserializer.pull C i d = .ok (d', some r) →
      Deserializer.Reach C d'
  | pullClaim {i : ι} {d d' : Deserializer ι} {a : A i} {d'' : Deserializer ι} :
      Deserializer.Reach C d → Deserializer.pull C i d = .ok (d', some (.ok (a, d''))) →
      Deserializer.Reach C d''
  | push {d : Deserializer ι} {x : Nat} :
      Deserializer.Reach C d → x < 256 → d.push_avail = true →
      Deserializer.Reach C (d.pushRun x)
  | empty {d : Deserializer ι} :
      Deserializer.Reach C d → d.empty_avail = true → Deserializer.Reach C d.emptyRun

end Buffer

/-! ## Suspendable backend (`src/fringe.rs`)

### Serializer coroutine (`SerializerInner`)

Observable states of the generator in `SerializerInner::new`, read off its
suspension points:

* `top` — suspended at the loop-head `yielder.suspend(None)` (or not yet
  started), awaiting a `SerializerMsg`;
* `queued rest` — a value has been delivered (`New(t)`); `rest` is the byte
  stream the serialize routine has still to emit for it. Immediately after
  `New(t)` the generator suspends once more (awaiting the first `Next`)
  before writing anything, so at that point `rest` is the full frame; each
  `Next` yields one byte through the `Writer`; after the last byte the next
  `Next` returns `None` and the generator is back at `top`.

The frame is the bincode payload, with a single sentinel byte `0`
substituted when the payload is empty (`if counter.count() == 0 {
writer.write(&[0]) }`). -/

namespace Fringe

/-- The byte stream the serializer coroutine emits for one value. -/
def frame {β : Type} (c : Codec β) (t : β) : List Nat :=
  if (c.encode t).length = 0 then [0] else c.encode t

inductive SInner : Type
  | top
  | queued (rest : List Nat)
deriving DecidableEq, Repr

/-- `SerializerInner::push`: `resume(New(t))`. Legal only at `top` (at any
other suspension point the generator hits a protocol `panic!`). -/
def SInner.push (st : SInner) (fr : List Nat) : Except String SInner :=
  match st with
  | .top => .ok (.queued fr)
  | .queued _ => .error "generator protocol"

/-- `SerializerInner::next`: `resume(Next)`. Yields the next byte of the
value in flight, or `none` when the serialize routine has finished (the
generator loops back to `top`). At `top` the generator's message `match`
hits `panic!`. -/
def SInner.next (st : SInner) : Except String (Option Nat × SInner) :=
  match st with
  | .top => .error "generator protocol"
  | .queued [] => .ok (none, .top)
  | .queued (b :: rest) => .ok (some b, .queued rest)

/-- `SerializerInner::into_stack` / `Drop`: `resume(Kill)`; clean only at
`top` (the generator breaks its loop and unwinds), a protocol `panic!`
anywhere else. -/
def SInner.intoStack (st : SInner) : Except String Unit :=
  match st with
  | .top => .ok ()
  | .queued _ => .error "generator protocol"

/-- The public `Serializer` of `fringe.rs`: the type-erased slot holding
the installed `SerializerInner` (tagged with its type index), the `done`
("idle") flag, and the one-byte look-ahead slot `pull`. -/
structure Serializer (ι : Type) where
  serializer : Option (ι × SInner)
  done : Bool
  pull : Option Nat

/-- `Serializer::new` -/
def Serializer.new {ι : Type} : Serializer ι := ⟨none, true, none⟩

/-- `Serializer::push_avail` -/
def Serializer.push_avail {ι : Type} (s : Serializer ι) : Bool := s.done

/-- `Serializer::pull_avail` -/
def Serializer.pull_avail {ι : Type} (s : Serializer ι) : Bool := s.pull.isSome

/-- `Serializer::empty_avail` -/
def Serializer.empty_avail {ι : Type} (s : Serializer ι) : Bool := !s.done || s.pull.isSome

section FamilyS

variable {ι : Type} [DecidableEq ι] {A : ι → Type} (C : ∀ i, Codec (A i))

/-- The body of the `FnOnce(T)` closure returned by `Serializer::push`:
clear `done`; install (or reuse, or rebuild on the recycled stack) a
`SerializerInner` for `T`; deliver the value; eagerly fetch the first byte
into the look-ahead slot (`self.pull = Some(ret.unwrap())`). -/
def Serializer.pushRun (i : ι) (s : Serializer ι) (t : A i) : Except String (Serializer ι) :=
  let inst : Except String SInner :=
    match s.serializer with
    | none => .ok .top
    | some (j, st) =>
      if j = i then .ok st
      else
        match st.intoStack with
        | .error e => .error e
        | .ok _ => .ok .top
  match inst with
  | .error e => .error e
  | .ok st =>
    match st.push (frame (C i) t) with
    | .error e => .error e
    | .ok st =>
      match st.next with
      | .error e => .error e
      | .ok (none, _) => .error "unwrap"
      | .ok (some b, st) => .ok ⟨some (i, st), false, some b⟩

/-- `Serializer::push` -/
def Serializer.pushOp (i : ι) (s : Serializer ι) :
    Option (A i → Except String (Serializer ι)) :=
  if s.done then some (fun t => s.pushRun C i t) else none

end FamilyS

/-- The body of the `FnOnce() -> u8` closure returned by `Serializer::pull`:
take the look-ahead byte; if not `done`, eagerly refill the slot from the
generator, flipping `done` when the generator signals exhaustion. -/
def Serializer.pullRun {ι : Type} (s : Serializer ι) : Except String (Nat × Serializer ι) :=
  match s.pull with
  | none => .error "unwrap"
  | some ret =>
    if s.done then .ok (ret, { s with pull := none })
    else
      match s.serializer with
      | none => .error "unwrap"
      | some (j, st) =>
        match st.next with
        | .error e => .error e
        | .ok (none, st') => .ok (ret, ⟨some (j, st'), true, none⟩)
        | .ok (some b, st') => .ok (ret, ⟨some (j, st'), false, some b⟩)

/-- `Serializer::pull` -/
def Serializer.pullOp {ι : Type} (s : Serializer ι) :
    Option (Except String (Nat × Serializer ι)) :=
  if s.pull.isSome then some s.pullRun else none

/-- The body of the closure returned by `Serializer::empty`: drain the
generator (`while next().is_some() {}`), set `done`, clear the slot. -/
def Serializer.emptyRun {ι : Type} (s : Serializer ι) : Except String (Serializer ι) :=
  if s.done then .ok { s with pull := none }
  else
    match s.serializer with
    | none => .error "unwrap"
    | some (j, st) =>
      match st with
      | .top => .error "generator protocol"
      | .queued _ => .ok ⟨some (j, .top), true, none⟩

/-- `Serializer::empty` -/
def Serializer.emptyOp {ι : Type} (s : Serializer ι) :
    Option (Except String (Serializer ι)) :=
  if !s.done || s.pull.isSome then some s.emptyRun else none

/-- `impl Drop for Serializer`: `assert!(self.done && self.pull.is_none())`,
after which dropping the boxed `SerializerInner` resumes its generator with
`Kill` (clean only at `top`). -/
def Serializer.dropOk {ι : Type} (s : Serializer ι) : Bool :=
  s.done && s.pull.isNone &&
    (match s.serializer with
     | none => true
     | some (_, st) => match st with | .top => true | .queued _ => false)

/-- States of the suspendable `Serializer` reachable through its public API. -/
inductive Serializer.Reach {ι : Type} [DecidableEq ι] {A : ι → Type} (C : ∀ i, Codec (A i)) :
    Serializer ι → Prop
  | new : Serializer.Reach C Serializer.new
  | push {i : ι} {t : A i} {s s' : Serializer ι} :
      Serializer.Reach C s → s.done = true → Serializer.pushRun C i s t = .ok s' →
      Serializer.Reach C s'
  | pull {s : Serializer ι} {b : Nat} {s' : Serializer ι} :
      Serializer.Reach C s → s.pullRun = .ok (b, s') → Serializer.Reach C s'
  | empty {s s' : Serializer ι} :
      Serializer.Reach C s → s.empty_avail = true → s.emptyRun = .ok s' →
      Serializer.Reach C s'

/-! ### Deserializer coroutine (`DeserializerInner`)

Observable states of the generator in `DeserializerInner::new`, read off
its suspension points:

* `top` — at the loop head (or not yet started, or suspended at the final
  `yielder.suspend(Either::Right(ret))` whose next resume message feeds the
  loop head), awaiting a `DeserializerMsg`;
* `running s k` — inside `Reader::read`: the bincode decode routine has
  consumed `k` bytes of the current value and its step machine is in state
  `s`, suspended at `suspend(Either::Left(false))` awaiting another byte;
* `sentinel a` — the decode routine returned `a` after consuming zero
  bytes; the generator is in the sentinel loop awaiting the single sentinel
  byte (asserted to equal `0`);
* `ready1 a` — decode (and sentinel handling) complete; suspended at the
  first post-decode `suspend(Either::Left(false))`, expecting `Next`;
* `ready2 a` — suspended at `suspend(Either::Left(true))` (a `done()` call
  has returned `true`), expecting the `Next` of `retrieve`/`discard`.
-/

inductive DInner {β : Type} (c : Codec β) : Type
  | top
  | running (s : c.DState) (count : Nat)
  | sentinel (a : β)
  | ready1 (a : β)
  | ready2 (a : β)

/-- `DeserializerInner::done`: `resume(Next).left().unwrap()`. At `top` the
decode of the next value starts (suspending at its first read, or in the
sentinel loop for a zero-byte decoder) and reports `false`; `ready1`
advances to `ready2` reporting `true`; at `ready2` the generator yields a
`Right`, so `.left().unwrap()` panics. -/
def DInner.done {β : Type} {c : Codec β} (st : DInner c) : Except String (Bool × DInner c) :=
  match st with
  | .top =>
    match c.dzero with
    | some a => .ok (false, .sentinel a)
    | none => .ok (false, .running c.dinit 0)
  | .running s k => .ok (false, .running s k)
  | .sentinel a => .ok (false, .sentinel a)
  | .ready1 a => .ok (true, .ready2 a)
  | .ready2 _ => .error "left unwrap"

/-- `DeserializerInner::next`: `resume(New(x))`, feeding one byte. In
`running` the byte drives the decode step machine; in `sentinel` the byte
is asserted to be `0`; at `top` the byte is the initial `t` of the next
decode; at `ready1`/`ready2` the generator expects `Next` and panics. -/
def DInner.nextB {β : Type} {c : Codec β} (st : DInner c) (x : Nat) : Except String (DInner c) :=
  match st with
  | .top =>
    match c.dzero with
    | some a => if x = 0 then .ok (.ready1 a) else .error "assert sentinel"
    | none =>
      match c.dstep c.dinit x with
      | Sum.inl s' => .ok (.running s' 1)
      | Sum.inr a => .ok (.ready1 a)
  | .running s k =>
    match c.dstep s x with
    | Sum.inl s' => .ok (.running s' (k + 1))
    | Sum.inr a => .ok (.ready1 a)
  | .sentinel a => if x = 0 then .ok (.ready1 a) else .error "assert sentinel"
  | .ready1 _ => .error "generator protocol"
  | .ready2 _ => .error "generator protocol"

/-- `DeserializerInner::retrieve` (and `discard`):
`resume(Next).right().unwrap()`. Legal only at `ready2`, where the
generator yields `Either::Right(ret)` and parks at the loop head. -/
def DInner.retrieve {β : Type} {c : Codec β} (st : DInner c) : Except String (β × DInner c) :=
  match st with
  | .ready2 a => .ok (a, .top)
  | _ => .error "right unwrap"

/-- `DeserializerInner::empty`: `resume(Empty)`. Legal only mid-read with
at least one byte consumed (`Empty if self.2 > 0`): the `Reader` returns
`UnexpectedEof`, the decode is abandoned and the generator parks at the
loop head. With zero bytes consumed, or at any other suspension point, the
generator panics. -/
def DInner.emptyB {β : Type} {c : Codec β} (st : DInner c) : Except String (DInner c) :=
  match st with
  | .running _ k => if k = 0 then .error "generator panic" else .ok .top
  | _ => .error "generator protocol"

/-- `DeserializerInner::into_stack` / `Drop`: `resume(Kill)`. Clean at the
loop head, mid-read with zero bytes consumed (`Kill if self.2 == 0` gives
`BrokenPipe`, on which the decode loop breaks), and in the sentinel loop;
a panic mid-value (`Kill => panic!("{}", self.2)`) or at the post-decode
suspension points. -/
def DInner.killOk {β : Type} {c : Codec β} (st : DInner c) : Bool :=
  match st with
  | .top => true
  | .running _ k => k == 0
  | .sentinel _ => true
  | .ready1 _ => false
  | .ready2 _ => false

/-- `DeserializerInner::into_stack` as an operation (asserts the generator
unwound cleanly). -/
def DInner.intoStack {β : Type} {c : Codec β} (st : DInner c) : Except String Unit :=
  if st.killOk then .ok () else .error "generator protocol"

/-- The public `Deserializer` of `fringe.rs`: the type-erased slot holding
the installed `DeserializerInner` (tagged with its type index) and the
`done`/`pending`/`mid` flags. -/
structure Deserializer (ι : Type) (A : ι → Type) (C : ∀ i, Codec (A i)) where
  deserializer : Option ((i : ι) × DInner (C i))
  done : Bool
  pending : Bool
  mid : Bool

section FamilyD

variable {ι : Type} [DecidableEq ι] {A : ι → Type} {C : ∀ i, Codec (A i)}

/-- `Deserializer::new` -/
def Deserializer.new : Deserializer ι A C := ⟨none, true, false, false⟩

/-- `Deserializer::pull_avail` -/
def Deserializer.pull_avail (d : Deserializer ι A C) : Bool := d.pending

/-- `Deserializer::push_avail` -/
def Deserializer.push_avail (d : Deserializer ι A C) : Bool := !d.done && !d.pending

/-- `Deserializer::empty_avail` -/
def Deserializer.empty_avail (d : Deserializer ι A C) : Bool := d.mid || d.pending

/-- The install step inside `Deserializer::pull`: keep the installed
backend if it is already a `DeserializerInner<T>`, otherwise release the
old generator's stack (`into_stack_box`) and build a fresh instance on it. -/
def installInner (i : ι) (slot : Option ((j : ι) × DInner (C j))) :
    Except String (DInner (C i)) :=
  match slot with
  | none => .ok .top
  | some ⟨j, st⟩ =>
    if h : j = i then .ok (h ▸ st)
    else
      match st.intoStack with
      | .error e => .error e
      | .ok _ => .ok .top

/-- The statement-part of `Deserializer::pull` (runs before the closure is
returned): if `done`, clear it, install/reuse the backend for `T` and
`assert!(!….done())` — which is also what kicks the generator out of the
loop head into the decode of the next value. -/
def Deserializer.pullPin (i : ι) (d : Deserializer ι A C) :
    Except String (Deserializer ι A C) :=
  if d.done then
    match installInner i d.deserializer with
    | .error e => .error e
    | .ok st =>
      match st.done with
      | .error e => .error e
      | .ok (true, _) => .error "assert not done"
      | .ok (false, st) => .ok { d with done := false, deserializer := some ⟨i, st⟩ }
  else .ok d

/-- The body of the `FnOnce() -> T` closure returned by `Deserializer::pull`
when a value is pending: clear `pending`, set `done`, downcast the slot to
`DeserializerInner<T>` (an `unwrap` that panics on a type mismatch) and
`retrieve` the value. -/
def Deserializer.pullClaim (i : ι) (d : Deserializer ι A C) :
    Except String (A i × Deserializer ι A C) :=
  let d := { d with pending := false, done := true }
  match d.deserializer with
  | none => .error "unwrap"
  | some ⟨j, st⟩ =>
    if h : j = i then
      match (h ▸ st : DInner (C i)).retrieve with
      | .error e => .error e
      | .ok (a, st') => .ok (a, { d with deserializer := some ⟨i, st'⟩ })
    else .error "downcast unwrap"

/-- `Deserializer::pull`: the pin/install phase, then the optional claim
closure (present iff `pending`). The returned pair is (state after the
call, the optional closure's result). -/
def Deserializer.pull (i : ι) (d : Deserializer ι A C) :
    Except String (Deserializer ι A C × Option (Except String (A i × Deserializer ι A C))) :=
  match d.pullPin i with
  | .error e => .error e
  | .ok d' => .ok (d', if d'.pending then some (d'.pullClaim i) else none)

/-- The body of the `FnOnce(u8)` closure returned by `Deserializer::push`:
set `mid`, feed the byte (`next_box`), then query `done_box`; on completion
clear `mid` and set `pending`. -/
def Deserializer.pushRun (d : Deserializer ι A C) (x : Nat) :
    Except String (Deserializer ι A C) :=
  let d := { d with mid := true }
  match d.deserializer with
  | none => .error "unwrap"
  | some ⟨j, st⟩ =>
    match st.nextB x with
    | .error e => .error e
    | .ok st =>
      match st.done with
      | .error e => .error e
      | .ok (true, st) => .ok { d with deserializer := some ⟨j, st⟩, mid := false, pending := true }
      | .ok (false, st) => .ok { d with deserializer := some ⟨j, st⟩ }

/-- `Deserializer::push` -/
def Deserializer.push (d : Deserializer ι A C) :
    Option (Nat → Except String (Deserializer ι A C)) :=
  if !d.done && !d.pending then some (fun x => d.pushRun x) else none

/-- The body of the closure returned by `Deserializer::empty`: discard a
pending value (`discard_box`), abandon a mid-flight decode (`empty_box`),
set `done`. -/
def Deserializer.emptyRun (d : Deserializer ι A C) : Except String (Deserializer ι A C) :=
  let step1 : Except String (Deserializer ι A C) :=
    if d.pending then
      match d.deserializer with
      | none => .error "unwrap"
      | some ⟨j, st⟩ =>
        match st.retrieve with
        | .error e => .error e
        | .ok (_, st') => .ok { d with deserializer := some ⟨j, st'⟩, pending := false }
    else .ok d
  match step1 with
  | .error e => .error e
  | .ok d =>
    let step2 : Except String (Deserializer ι A C) :=
      if d.mid then
        match d.deserializer with
        | none => .error "unwrap"
        | some ⟨j, st⟩ =>
          match st.emptyB with
          | .error e => .error e
          | .ok st' => .ok { d with deserializer := some ⟨j, st'⟩, mid := false }
      else .ok d
    match step2 with
    | .error e => .error e
    | .ok d => .ok { d with done := true }

/-- `Deserializer::empty` -/
def Deserializer.empty (d : Deserializer ι A C) :
    Option (Except String (Deserializer ι A C)) :=
  if d.mid || d.pending then some d.emptyRun else none

/-- `impl Drop for Deserializer`: `assert!(!self.mid && !self.pending)`,
after which dropping the boxed `DeserializerInner` resumes its generator
with `Kill` (clean only in the `killOk` states). -/
def Deserializer.dropOk (d : Deserializer ι A C) : Bool :=
  !d.mid && !d.pending &&
    (match d.deserializer with
     | none => true
     | some ⟨_, st⟩ => st.killOk)

/-- States of the suspendable `Deserializer` reachable through its public
API (bytes pushed are `u8`s, hence `< 256`). -/
inductive Deserializer.Reach : Deserializer ι A C → Prop
  | new : Deserializer.Reach Deserializer.new
  | pullDecline {i : ι} {d d' : Deserializer ι A C} :
      Deserializer.Reach d → Deserializer.pull i d = .ok (d', none) →
      Deserializer.Reach d'
  | pullKeep {i : ι} {d d' : Deserializer ι A C} {r : Except String (A i × Deserializer ι A C)} :
      Deserializer.Reach d → Deserializer.pull i d = .ok (d', some r) →
      Deserializer.Reach d'
  | pullClaim {i : ι} {d d' : Deserializer ι A C} {a : A i} {d'' : Deserializer ι A C} :
      Deserializer.Reach d → Deserializer.pull i d = .ok (d', some (.ok (a, d''))) →
      Deserializer.Reach d''
  | push {d : Deserializer ι A C} {x : Nat} {d' : Deserializer ι A C} :
      Deserializer.Reach d → x < 256 → d.push_avail = true → d.pushRun x = .ok d' →
      Deserializer.Reach d'
  | empty {d d' : Deserializer ι A C} :
      Deserializer.Reach d → d.empty_avail = true → d.emptyRun = .ok d' →
      Deserializer.Reach d'

end FamilyD

end Fringe

/-! ## Invariants -/

namespace Fringe

theorem frame_ne_nil {β : Type} (c : Codec β) (t : β) : frame c t ≠ [] := by
  by_cases h : (c.encode t).length = 0
  · simp [frame, h]
  · simp only [frame, if_neg h]
    intro hn
    exact h (by simp [hn])

/-- Invariant of the suspendable `Serializer`: the look-ahead slot is
populated exactly when not `done`; at rest the installed generator is
parked at its loop head; while draining, the generator holds the remaining
byte queue. -/
def Serializer.Inv {ι : Type} (s : Serializer ι) : Prop :=
  (s.pull.isSome = !s.done) ∧
  (s.done = true →
    match s.serializer with
    | none => True
    | some (_, st) => st = SInner.top) ∧
  (s.done = false → ∃ j r, s.serializer = some (j, SInner.queued r))

theorem Serializer.pushRun_ok {ι : Type} [DecidableEq ι] {A : ι → Type} (C : ∀ i, Codec (A i))
    (i : ι) {s : Serializer ι} (t : A i)
    (hrest : match s.serializer with
      | none => True
      | some (_, st) => st = SInner.top) :
    Serializer.pushRun C i s t =
      .ok ⟨some (i, SInner.queued (frame (C i) t).tail), false, some (frame (C i) t).headI⟩ := by
  obtain ⟨b, r, hbr⟩ := List.exists_cons_of_ne_nil (frame_ne_nil (C i) t)
  match hs : s.serializer with
  | none =>
    simp [Serializer.pushRun, hs, SInner.push, SInner.next, hbr]
  | some (j, st) =>
    rw [hs] at hrest
    subst hrest
    by_cases hj : j = i <;>
      simp [Serializer.pushRun, hs, SInner.push, SInner.next, SInner.intoStack, hbr, hj]

theorem Serializer.reach_inv_fser {ι : Type} [DecidableEq ι] {A : ι → Type} (C : ∀ i, Codec (A i))
    {s : Serializer ι} (h : Serializer.Reach C s) : Serializer.Inv s := by
  induction h with
  | new => exact ⟨rfl, fun _ => trivial, fun hf => by simp [Serializer.new] at hf⟩
  | @push i t s s' hr hdone hpush ih =>
    rw [Serializer.pushRun_ok C i t (ih.2.1 hdone)] at hpush
    cases hpush
    exact ⟨rfl, fun hf => by simp at hf, fun _ => ⟨i, (frame (C i) t).tail, rfl⟩⟩
  | @pull s b s' hr hpull ih =>
    obtain ⟨hslot, hrest, hq⟩ := ih
    match hp : s.pull with
    | none => simp [Serializer.pullRun, hp] at hpull
    | some ret =>
      have hdone : s.done = false := by
        cases hd : s.done
        · rfl
        · rw [hp, hd] at hslot; simp at hslot
      obtain ⟨j, r, hser⟩ := hq hdone
      match r with
      | [] =>
        simp [Serializer.pullRun, hp, hdone, hser, SInner.next] at hpull
        cases hpull.2
        exact ⟨rfl, fun _ => rfl, fun hf => by simp at hf⟩
      | b' :: r' =>
        simp [Serializer.pullRun, hp, hdone, hser, SInner.next] at hpull
        cases hpull.2
        exact ⟨rfl, fun hf => by simp at hf, fun _ => ⟨j, r', rfl⟩⟩
  | @empty s s' hr havail hempty ih =>
    obtain ⟨hslot, hrest, hq⟩ := ih
    cases hdone : s.done
    · obtain ⟨j, r, hser⟩ := hq hdone
      simp [Serializer.emptyRun, hdone, hser] at hempty
      cases hempty
      exact ⟨rfl, fun _ => rfl, fun hf => by simp at hf⟩
    · simp [Serializer.emptyRun, hdone] at hempty
      cases hempty
      refine ⟨by simp [hdone], fun _ => ?_, fun hf => by simp [hdone] at hf⟩
      exact hrest hdone
end Fringe

namespace Fringe

/-- The generator state just after it has been kicked out of the loop head
into the decode of the next value (see `DInner.done` at `top`). -/
def freshInner {β : Type} (c : Codec β) : DInner c :=
  match c.dzero with
  | some a => DInner.sentinel a
  | none => DInner.running c.dinit 0

theorem DInner.done_top {β : Type} (c : Codec β) :
    (DInner.top : DInner c).done = .ok (false, freshInner c) := by
  cases h : c.dzero <;> simp [DInner.done, freshInner, h]

theorem freshInner_some {β : Type} {c : Codec β} {a : β} (h : c.dzero = some a) :
    freshInner c = DInner.sentinel a := by
  unfold freshInner
  rw [h]

theorem freshInner_none {β : Type} {c : Codec β} (h : c.dzero = none) :
    freshInner c = DInner.running c.dinit 0 := by
  unfold freshInner
  rw [h]

/-- Invariant of the suspendable `Deserializer`, relating the three flags
to the generator's suspension point. -/
def Deserializer.Inv {ι : Type} {A : ι → Type} {C : ∀ i, Codec (A i)}
    (d : Deserializer ι A C) : Prop :=
  (d.done = true → d.pending = false ∧ d.mid = false ∧
    (match d.deserializer with
     | none => True
     | some ⟨_, st⟩ => st = DInner.top)) ∧
  (d.pending = true → d.done = false ∧ d.mid = false ∧
    (match d.deserializer with
     | none => False
     | some ⟨_, st⟩ => ∃ a, st = DInner.ready2 a)) ∧
  (d.mid = true → d.done = false ∧ d.pending = false ∧
    (match d.deserializer with
     | none => False
     | some ⟨_, st⟩ => ∃ s k, st = DInner.running s (k + 1))) ∧
  (d.done = false → d.pending = false → d.mid = false →
    (match d.deserializer with
     | none => False
     | some ⟨_, st⟩ => (∃ s, st = DInner.running s 0) ∨ (∃ a, st = DInner.sentinel a)))

section FamilyDInv

variable {ι : Type} [DecidableEq ι] {A : ι → Type} {C : ∀ i, Codec (A i)}

theorem installInner_rest (i : ι) (slot : Option ((j : ι) × DInner (C j)))
    (h : match slot with
      | none => True
      | some ⟨_, st⟩ => st = DInner.top) :
    installInner (C := C) i slot = .ok DInner.top := by
  match slot with
  | none => rfl
  | some ⟨j, st⟩ =>
    simp only at h
    subst h
    by_cases hj : j = i
    · subst hj; simp [installInner]
    · simp [installInner, hj, DInner.intoStack, DInner.killOk]

theorem Deserializer.pullPin_done (i : ι) {d : Deserializer ι A C} (hdone : d.done = true)
    (hrest : match d.deserializer with
      | none => True
      | some ⟨_, st⟩ => st = DInner.top) :
    d.pullPin i = .ok { d with done := false, deserializer := some ⟨i, freshInner (C i)⟩ } := by
  simp only [Deserializer.pullPin, hdone, if_true, installInner_rest i _ hrest, DInner.done_top]

theorem Deserializer.pullPin_not_done (i : ι) {d : Deserializer ι A C}
    (hdone : d.done = false) : d.pullPin i = .ok d := by
  simp [Deserializer.pullPin, hdone]

theorem Deserializer.pull_ok_parts {i : ι} {d d' : Deserializer ι A C}
    {r : Option (Except String (A i × Deserializer ι A C))}
    (h : Deserializer.pull i d = .ok (d', r)) :
    d.pullPin i = .ok d' ∧ r = (if d'.pending then some (d'.pullClaim i) else none) := by
  cases hp : d.pullPin i with
  | error e => simp [Deserializer.pull, hp] at h
  | ok d2 =>
    simp [Deserializer.pull, hp] at h
    obtain ⟨h1, h2⟩ := h
    subst h1
    exact ⟨rfl, h2.symm⟩

theorem Deserializer.pullPin_inv {i : ι} {d d' : Deserializer ι A C}
    (hinv : d.Inv) (h : d.pullPin i = .ok d') : d'.Inv := by
  cases hdone : d.done
  · rw [Deserializer.pullPin_not_done i hdone] at h
    cases h
    exact hinv
  · obtain ⟨hpend, hmid, hrest⟩ := hinv.1 hdone
    rw [Deserializer.pullPin_done i hdone hrest] at h
    cases h
    refine ⟨fun hf => by simp at hf, fun hf => by simp [hpend] at hf,
      fun hf => by simp [hmid] at hf, fun _ _ _ => ?_⟩
    simp only
    cases h : (C i).dzero with
    | none => exact Or.inl ⟨(C i).dinit, freshInner_none h⟩
    | some a => exact Or.inr ⟨a, freshInner_some h⟩

theorem Deserializer.new_inv : (Deserializer.new : Deserializer ι A C).Inv := by
  refine ⟨fun _ => ⟨rfl, rfl, trivial⟩, fun hf => ?_, fun hf => ?_, fun hf => ?_⟩ <;>
    simp [Deserializer.new] at hf

theorem Deserializer.reach_inv_fdes {d : Deserializer ι A C} (h : d.Reach) : d.Inv := by
  induction h with
  | new => exact Deserializer.new_inv
  | @pullDecline i d d' hr hpull ih =>
    exact Deserializer.pullPin_inv ih (Deserializer.pull_ok_parts hpull).1
  | @pullKeep i d d' r hr hpull ih =>
    exact Deserializer.pullPin_inv ih (Deserializer.pull_ok_parts hpull).1
  | @pullClaim i d d' a d'' hr hpull ih =>
    obtain ⟨hpin, hr2⟩ := Deserializer.pull_ok_parts hpull
    have hinv' : d'.Inv := Deserializer.pullPin_inv ih hpin
    cases hpend : d'.pending
    · rw [if_neg (by simp [hpend])] at hr2; cases hr2
    · rw [if_pos (by simp [hpend])] at hr2
      obtain ⟨hdone', hmid', hslot⟩ := hinv'.2.1 hpend
      injection hr2 with hr2
      match hslot2 : d'.deserializer with
      | none => rw [hslot2] at hslot; exact absurd hslot id
      | some ⟨j, st⟩ =>
        rw [hslot2] at hslot
        obtain ⟨a', hst⟩ := hslot
        subst hst
        by_cases hj : j = i
        · subst hj
          simp [Deserializer.pullClaim, hslot2, DInner.retrieve] at hr2
          rw [hr2.2]
          refine ⟨fun _ => ⟨rfl, hmid', rfl⟩, fun hf => by simp at hf,
            fun hf => by simp [hmid'] at hf, fun hf => by simp at hf⟩
        · simp [Deserializer.pullClaim, hslot2, hj] at hr2
  | @push d x d' hr hx havail hpush ih =>
    have hdone : d.done = false := by
      simp [Deserializer.push_avail] at havail; exact havail.1
    have hpend : d.pending = false := by
      simp [Deserializer.push_avail] at havail; exact havail.2
    cases hmid : d.mid
    · obtain ⟨j, st, hslot, hfresh⟩ : ∃ j st, d.deserializer = some ⟨j, st⟩ ∧
          ((∃ s, st = DInner.running s 0) ∨ (∃ a, st = DInner.sentinel a)) := by
        have := ih.2.2.2 hdone hpend hmid
        match hs : d.deserializer with
        | none => rw [hs] at this; exact absurd this id
        | some ⟨j, st⟩ => rw [hs] at this; exact ⟨j, st, rfl, this⟩
      rcases hfresh with ⟨s, hst⟩ | ⟨a, hst⟩ <;> subst hst
      · cases hstep : (C j).dstep s x with
        | inl s' =>
          simp [Deserializer.pushRun, hslot, DInner.nextB, hstep, DInner.done] at hpush
          rw [← hpush]
          exact ⟨fun hf => by simp [hdone] at hf, fun hf => by simp [hpend] at hf,
            fun _ => ⟨hdone, hpend, ⟨s', 0, rfl⟩⟩, fun _ _ hf => by simp at hf⟩
        | inr a =>
          simp [Deserializer.pushRun, hslot, DInner.nextB, hstep, DInner.done] at hpush
          rw [← hpush]
          exact ⟨fun hf => by simp [hdone] at hf, fun _ => ⟨hdone, rfl, ⟨a, rfl⟩⟩,
            fun hf => by simp [hmid] at hf, fun _ hf => by simp at hf⟩
      · by_cases hx0 : x = 0
        · simp [Deserializer.pushRun, hslot, DInner.nextB, hx0, DInner.done] at hpush
          rw [← hpush]
          exact ⟨fun hf => by simp [hdone] at hf, fun _ => ⟨hdone, rfl, ⟨a, rfl⟩⟩,
            fun hf => by simp [hmid] at hf, fun _ hf => by simp at hf⟩
        · simp [Deserializer.pushRun, hslot, DInner.nextB, hx0, DInner.done] at hpush
    · obtain ⟨_, _, hm⟩ := ih.2.2.1 hmid
      obtain ⟨j, st, hslot, s, k, hst⟩ : ∃ j st, d.deserializer = some ⟨j, st⟩ ∧
          ∃ s k, st = DInner.running s (k + 1) := by
        match hs : d.deserializer with
        | none => rw [hs] at hm; exact absurd hm id
        | some ⟨j, st⟩ => rw [hs] at hm; exact ⟨j, st, rfl, hm⟩
      subst hst
      cases hstep : (C j).dstep s x with
      | inl s' =>
        simp [Deserializer.pushRun, hslot, DInner.nextB, hstep, DInner.done] at hpush
        rw [← hpush]
        exact ⟨fun hf => by simp [hdone] at hf, fun hf => by simp [hpend] at hf,
          fun _ => ⟨hdone, hpend, ⟨s', k + 1, rfl⟩⟩, fun _ _ hf => by simp at hf⟩
      | inr a =>
        simp [Deserializer.pushRun, hslot, DInner.nextB, hstep, DInner.done] at hpush
        rw [← hpush]
        exact ⟨fun hf => by simp [hdone] at hf, fun _ => ⟨hdone, rfl, ⟨a, rfl⟩⟩,
          fun hf => by simp at hf, fun _ hf => by simp at hf⟩
  | @empty d d' hr havail hempty ih =>
    cases hpend : d.pending
    · have hmid : d.mid = true := by
        simp [Deserializer.empty_avail, hpend] at havail; exact havail
      obtain ⟨hdone, _, hm⟩ := ih.2.2.1 hmid
      obtain ⟨j, st, hslot, s, k, hst⟩ : ∃ j st, d.deserializer = some ⟨j, st⟩ ∧
          ∃ s k, st = DInner.running s (k + 1) := by
        match hs : d.deserializer with
        | none => rw [hs] at hm; exact absurd hm id
        | some ⟨j, st⟩ => rw [hs] at hm; exact ⟨j, st, rfl, hm⟩
      subst hst
      simp [Deserializer.emptyRun, hpend, hmid, hslot, DInner.emptyB] at hempty
      rw [← hempty]
      exact ⟨fun _ => ⟨rfl, rfl, rfl⟩, fun hf => by simp at hf,
        fun hf => by simp at hf, fun hf => by simp at hf⟩
    · obtain ⟨hdone, hmid, hslot⟩ := ih.2.1 hpend
      obtain ⟨j, st, hsl, a, hst⟩ : ∃ j st, d.deserializer = some ⟨j, st⟩ ∧
          ∃ a, st = DInner.ready2 a := by
        match hs : d.deserializer with
        | none => rw [hs] at hslot; exact absurd hslot id
        | some ⟨j, st⟩ => rw [hs] at hslot; exact ⟨j, st, rfl, hslot⟩
      subst hst
      simp [Deserializer.emptyRun, hpend, hmid, hsl, DInner.retrieve] at hempty
      rw [← hempty]
      exact ⟨fun _ => ⟨rfl, rfl, rfl⟩, fun hf => by simp at hf,
        fun hf => by simp at hf, fun hf => by simp at hf⟩

end FamilyDInv

end Fringe

namespace Buffer

/-- Invariant of the eager `Serializer`: a held buffer is at least 9 bytes
long (8-byte prefix plus at least one payload byte) and the cursor is
strictly inside it. -/
def Serializer.Inv (s : Serializer) : Prop :=
  ∀ buf idx, s.buffer = some (buf, idx) → 9 ≤ buf.length ∧ idx < buf.length

theorem Serializer.pushRun_buffer {β : Type} (c : Codec β) (s : Serializer) (t : β) :
    (s.pushRun c t).buffer =
      some
        (if (c.encode t).length = 0 then encodeUsize 1 ++ [0]
         else encodeUsize (c.encode t).length ++ c.encode t, 0) := by
  by_cases h : (c.encode t).length = 0
  · have : c.encode t = [] := List.length_eq_zero.mp h
    simp [Serializer.pushRun, h, this]
  · simp [Serializer.pushRun, h]

theorem Serializer.reach_inv_bser {s : Serializer} (h : Serializer.Reach s) : Serializer.Inv s := by
  induction h with
  | new => intro buf idx hb; simp [Serializer.new] at hb
  | @push β c t s hr hn ih =>
    intro buf idx hb
    rw [Serializer.pushRun_buffer] at hb
    injection hb with hb
    obtain ⟨hb1, hb2⟩ := Prod.mk.injEq .. ▸ hb
    subst hb2
    by_cases h : (c.encode t).length = 0
    · rw [if_pos h] at hb1
      subst hb1
      refine ⟨?_, ?_⟩ <;> simp [encodeUsize_length]
    · rw [if_neg h] at hb1
      subst hb1
      have h2 : 9 ≤ 8 + (c.encode t).length ∧ 0 < 8 + (c.encode t).length := by omega
      simpa [encodeUsize_length] using h2
  | @pull s b s' hr hpull ih =>
    intro buf idx hb
    match hs : s.buffer with
    | none => simp [Serializer.pullRun, hs] at hpull
    | some (buf0, idx0) =>
      obtain ⟨h9, hlt⟩ := ih buf0 idx0 hs
      have hget : buf0[idx0]? = some buf0[idx0] := List.getElem?_eq_getElem hlt
      simp [Serializer.pullRun, hs, hget] at hpull
      rw [← hpull.2] at hb
      by_cases hend : idx0 + 1 = buf0.length
      · simp [hend] at hb
      · simp [hend] at hb
        obtain ⟨hb1, hb2⟩ := hb
        subst hb1; subst hb2
        exact ⟨h9, by omega⟩
  | empty hr hsome ih =>
    intro buf idx hb
    simp [Serializer.emptyRun] at hb

/-- A reachable eager `Serializer` never indexes out of bounds: whenever
the buffer is present, the performed pull succeeds. -/
theorem Serializer.reach_pullRun_some {s : Serializer} (h : Serializer.Reach s)
    {buf : List Nat} {idx : Nat} (hb : s.buffer = some (buf, idx)) :
    ∃ b s', s.pullRun = some (b, s') := by
  obtain ⟨h9, hlt⟩ := Serializer.reach_inv_bser h buf idx hb
  have hget : buf[idx]? = some buf[idx] := List.getElem?_eq_getElem hlt
  exact ⟨buf[idx], ⟨if idx + 1 = buf.length then none else some (buf, idx + 1)⟩,
    by simp [Serializer.pullRun, hb, hget]⟩

/-- Invariant of the eager `Deserializer`: while no type is pinned, the
accumulation state is empty. -/
def Deserializer.Inv {ι : Type} (d : Deserializer ι) : Prop :=
  d.deserializer = none → d.buffer = [] ∧ d.len = 0

section FamilyBInv

variable {ι : Type} [DecidableEq ι] {A : ι → Type} {C : ∀ i, Codec (A i)}

theorem Deserializer.pull_ok_state {i : ι} {d d' : Deserializer ι}
    {r : Option (Except String (A i × Deserializer ι))}
    (h : Deserializer.pull C i d = .ok (d', r)) :
    d' = Deserializer.pinState i d := by
  unfold Deserializer.pull at h
  split at h
  · cases h
  · split at h
    · split at h
      · injection h with h; exact ((Prod.mk.injEq .. ▸ h).1).symm
      · injection h with h; exact ((Prod.mk.injEq .. ▸ h).1).symm
    · cases h

theorem Deserializer.reach_inv_bdes {d : Deserializer ι} (h : Deserializer.Reach C d) :
    Deserializer.Inv d := by
  induction h with
  | new => intro _; exact ⟨rfl, rfl⟩
  | @pullDecline i d d' hr hpull ih =>
    rw [Deserializer.pull_ok_state hpull]
    by_cases hn : d.deserializer.isNone <;> intro hnone
    · simp [Deserializer.pinState, hn] at hnone
    · simp only [Deserializer.pinState, hn, if_false, Bool.false_eq_true] at hnone ⊢
      exact ih hnone
  | @pullKeep i d d' r hr hpull ih =>
    rw [Deserializer.pull_ok_state hpull]
    by_cases hn : d.deserializer.isNone <;> intro hnone
    · simp [Deserializer.pinState, hn] at hnone
    · simp only [Deserializer.pinState, hn, if_false, Bool.false_eq_true] at hnone ⊢
      exact ih hnone
  | @pullClaim i d d' a d'' hr hpull ih =>
    have hnew : d'' = Deserializer.new := by
      unfold Deserializer.pull at hpull
      split at hpull
      · cases hpull
      · split at hpull
        · split at hpull
          · injection hpull with hpull
            have h2 := (Prod.mk.injEq .. ▸ hpull).2
            injection h2 with h2
            unfold Deserializer.pullRun at h2
            split at h2
            · cases h2
            · split at h2
              · split at h2
                · split at h2
                  · injection h2 with h2
                    exact ((Prod.mk.injEq .. ▸ h2).2).symm
                  · cases h2
                · cases h2
              · split at h2
                · injection h2 with h2
                  exact ((Prod.mk.injEq .. ▸ h2).2).symm
                · cases h2
          · injection hpull with hpull
            cases (Prod.mk.injEq .. ▸ hpull).2
        · cases hpull
    rw [hnew]
    intro _; exact ⟨rfl, rfl⟩
  | @push d x hr hx havail ih =>
    intro hnone
    have hsome : d.deserializer.isSome = true := by
      simp [Deserializer.push_avail] at havail; exact havail.1
    unfold Deserializer.pushRun at hnone
    by_cases hc : d.len = 0 ∧ (d.buffer ++ [x]).length = 8
    · rw [if_pos hc] at hnone
      simp at hnone
      rw [hnone] at hsome
      simp at hsome
    · rw [if_neg hc] at hnone
      simp at hnone
      rw [hnone] at hsome
      simp at hsome
  | empty hr havail ih =>
    intro _; exact ⟨rfl, rfl⟩

end FamilyBInv

end Buffer

/-! ## Byte-by-byte transfer loops

`pipe` is the canonical interleaving of the round-trip scenario: while the
serializer has a byte ready, pull it and immediately push it into the
deserializer. All availability queries are pure functions of the state, so
interleaving extra queries (or pacing the transfers differently) cannot
change any step. The payload on the wire is `frame` for both backends
(`Fringe.frame`, the value's bincode encoding with the zero-byte sentinel
rule applied); the eager backend prefixes it with `encodeUsize` of its
length. -/

namespace Buffer

/-- Feed a list of bytes, one performed `Deserializer::push` per byte
(`none` if the pipe ever refuses a byte). -/
def feedD {ι : Type} (d : Deserializer ι) : List Nat → Option (Deserializer ι)
  | [] => some d
  | b :: bs =>
    match d.push with
    | none => none
    | some f => feedD (f b) bs

/-- Pull every ready byte from the serializer and push it into the
deserializer, one byte at a time. -/
def pipe {ι : Type} : Nat → Serializer → Deserializer ι → Option (Serializer × Deserializer ι)
  | 0, s, d => some (s, d)
  | fuel + 1, s, d =>
    if s.pull_avail then
      match s.pullRun with
      | none => none
      | some (b, s') =>
        match d.push with
        | none => none
        | some f => pipe fuel s' (f b)
    else some (s, d)

theorem pipe_idle_b {ι : Type} (fuel : Nat) (d : Deserializer ι) :
    pipe fuel Serializer.new d = some (Serializer.new, d) := by
  cases fuel <;> simp [pipe, Serializer.pull_avail, Serializer.new]

theorem pipe_drain_b {ι : Type} (buf : List Nat) :
    ∀ fuel idx (d : Deserializer ι), idx < buf.length → buf.length - idx ≤ fuel →
      pipe fuel ⟨some (buf, idx)⟩ d
        = (feedD d (buf.drop idx)).map (fun d' => (Serializer.new, d')) := by
  intro fuel
  induction fuel with
  | zero => intro idx d hlt hfuel; omega
  | succ fuel ih =>
    intro idx d hlt hfuel
    have hget : buf[idx]? = some buf[idx] := List.getElem?_eq_getElem hlt
    have hdrop : buf.drop idx = buf[idx] :: buf.drop (idx + 1) := List.drop_eq_getElem_cons hlt
    rw [hdrop]
    simp only [pipe, Serializer.pull_avail, Option.isSome_some, if_true,
      Serializer.pullRun, List.get?_eq_getElem?, hget, feedD]
    cases hp : d.push with
    | none => simp
    | some f =>
      by_cases hend : idx + 1 = buf.length
      · rw [if_pos hend, hend, List.drop_length]
        exact pipe_idle_b fuel (f buf[idx])
      · rw [if_neg hend]
        have hlt' : idx + 1 < buf.length := by omega
        show pipe fuel ⟨some (buf, idx + 1)⟩ (f buf[idx])
            = Option.map (fun d' => (Serializer.new, d')) (feedD (f buf[idx]) (List.drop (idx + 1) buf))
        exact ih (idx + 1) (f buf[idx]) hlt' (by omega)

end Buffer

theorem Fringe.frame_of_nil {β : Type} {c : Codec β} {t : β} (h : c.encode t = []) :
    Fringe.frame c t = [0] := by
  simp [Fringe.frame, h]

theorem Fringe.frame_of_ne_nil {β : Type} {c : Codec β} {t : β} (h : c.encode t ≠ []) :
    Fringe.frame c t = c.encode t := by
  rw [Fringe.frame, if_neg (by simpa [List.length_eq_zero] using h)]

namespace Buffer

theorem feedD_append {ι : Type} (xs ys : List Nat) :
    ∀ d : Deserializer ι,
      feedD d (xs ++ ys) = (feedD d xs).bind (fun d' => feedD d' ys) := by
  induction xs with
  | nil => intro d; rfl
  | cons x xs ih =>
    intro d
    show feedD d (x :: (xs ++ ys)) = _
    simp only [feedD]
    cases d.push with
    | none => rfl
    | some f => exact ih (f x)

theorem feedD_pre {ι : Type} (i : ι) :
    ∀ (bs acc : List Nat), bs ≠ [] → acc.length + bs.length = 8 →
      feedD (⟨acc, 0, some i⟩ : Deserializer ι) bs
        = some ⟨[], decodeUsizeList (acc ++ bs), some i⟩ := by
  intro bs
  induction bs with
  | nil => intro acc h _; exact absurd rfl h
  | cons b bs ih =>
    intro acc _ hlen
    have hpush : (⟨acc, 0, some i⟩ : Deserializer ι).push
        = some (fun x => Deserializer.pushRun ⟨acc, 0, some i⟩ x) := by
      simp [Deserializer.push]
    simp only [feedD, hpush]
    cases bs with
    | nil =>
      have h8 : acc.length + 1 = 8 := by simpa using hlen
      show feedD (Deserializer.pushRun ⟨acc, 0, some i⟩ b) [] = _
      rw [Deserializer.pushRun]
      simp only [List.length_append, List.length_cons, List.length_nil]
      rw [if_pos ⟨trivial, by simpa using h8⟩]
      rfl
    | cons b' bs' =>
      have hne : (acc ++ [b]).length ≠ 8 := by
        simp only [List.length_cons] at hlen
        simp [List.length_append]
        omega
      show feedD (Deserializer.pushRun ⟨acc, 0, some i⟩ b) (b' :: bs') = _
      rw [Deserializer.pushRun]
      simp only
      rw [if_neg (fun hc => hne hc.2)]
      have := ih (acc ++ [b]) (by simp) (by simp at hlen ⊢; omega)
      simpa [List.append_assoc] using this

theorem feedD_pay {ι : Type} (i : ι) (L : Nat) (hL : L ≠ 0) :
    ∀ (bs acc : List Nat), acc.length + bs.length ≤ L →
      feedD (⟨acc, L, some i⟩ : Deserializer ι) bs = some ⟨acc ++ bs, L, some i⟩ := by
  intro bs
  induction bs with
  | nil => intro acc _; simp [feedD]
  | cons b bs ih =>
    intro acc hlen
    have hpush : (⟨acc, L, some i⟩ : Deserializer ι).push
        = some (fun x => Deserializer.pushRun ⟨acc, L, some i⟩ x) := by
      have hlt : acc.length ≠ L := by
        simp only [List.length_cons] at hlen
        omega
      simp [Deserializer.push, hlt]
    simp only [feedD, hpush]
    show feedD (Deserializer.pushRun ⟨acc, L, some i⟩ b) bs = _
    rw [Deserializer.pushRun]
    simp only
    rw [if_neg (fun hc => hL hc.1)]
    have := ih (acc ++ [b]) (by simp at hlen ⊢; omega)
    simpa [List.append_assoc] using this

theorem feedD_full {ι : Type} (i : ι) (P : List Nat) (hP : P ≠ [])
    (hlen : P.length < 2 ^ 64) :
    feedD (⟨[], 0, some i⟩ : Deserializer ι) (encodeUsize P.length ++ P)
      = some ⟨P, P.length, some i⟩ := by
  have hL : P.length ≠ 0 := by simpa [List.length_eq_zero] using hP
  rw [feedD_append]
  rw [feedD_pre i (encodeUsize P.length) []
    (by
      have : (encodeUsize P.length).length = 8 := encodeUsize_length _
      intro hc
      rw [hc] at this
      simp at this)
    (by simp [encodeUsize_length])]
  simp only [List.nil_append, decode_encodeUsize P.length hlen, Option.bind_some]
  have := feedD_pay i P.length hL P []
  simpa using this (by simp)

section FamilyBRT

variable {ι : Type} [DecidableEq ι] {A : ι → Type} (C : ∀ i, Codec (A i))

/-- Pinning a fresh eager `Deserializer` to type `i`: records the type, no
value available. -/
theorem Deserializer.pull_pin_new_b (i : ι) :
    Deserializer.pull C i (Deserializer.new : Deserializer ι)
      = .ok (⟨[], 0, some i⟩, none) := by
  unfold Deserializer.pull Deserializer.pinState Deserializer.new
  simp

/-- Claiming a fully-buffered frame from the eager `Deserializer` yields
the original value and resets the pipe. -/
theorem Deserializer.pull_frame (i : ι) (t : A i) :
    Deserializer.pull C i ⟨Fringe.frame (C i) t, (Fringe.frame (C i) t).length, some i⟩
      = .ok (⟨Fringe.frame (C i) t, (Fringe.frame (C i) t).length, some i⟩,
          some (.ok (t, Deserializer.new))) := by
  have hne := Fringe.frame_ne_nil (C i) t
  have hL : (Fringe.frame (C i) t).length ≠ 0 := by
    simpa [List.length_eq_zero] using hne
  have hpin : Deserializer.pinState i
      (⟨Fringe.frame (C i) t, (Fringe.frame (C i) t).length, some i⟩ : Deserializer ι)
      = ⟨Fringe.frame (C i) t, (Fringe.frame (C i) t).length, some i⟩ := by
    rw [Deserializer.pinState, if_neg (by simp)]
  have hrun : Deserializer.pullRun C i
      (⟨Fringe.frame (C i) t, (Fringe.frame (C i) t).length, some i⟩ : Deserializer ι)
      = .ok (t, Deserializer.new) := by
    by_cases h : (C i).encode t = []
    · have hf := Fringe.frame_of_nil (c := C i) (t := t) h
      have hz := (C i).decode_encode_nil t h
      rw [Deserializer.pullRun]
      simp only [hf, Codec.decode, hz]
      rfl
    · have hf := Fringe.frame_of_ne_nil (c := C i) (t := t) h
      obtain ⟨hz, hdec⟩ := (C i).decode_encode_cons t h
      rw [Deserializer.pullRun]
      simp only [hf, Codec.decode, hz, hdec]
      simp [List.length_eq_zero, h]
  rw [Deserializer.pull, hpin]
  simp [hrun, hL]

end FamilyBRT

end Buffer

namespace Fringe

section FamilyRT

variable {ι : Type} [DecidableEq ι] {A : ι → Type} {C : ∀ i, Codec (A i)}

/-- Feed a list of bytes, one performed `Deserializer::push` per byte. -/
def feedF (d : Deserializer ι A C) : List Nat → Except String (Deserializer ι A C)
  | [] => .ok d
  | b :: bs =>
    match d.push with
    | none => .error "pipe refused byte"
    | some f =>
      match f b with
      | .error e => .error e
      | .ok d' => feedF d' bs

/-- Pull every ready byte from the serializer and push it into the
deserializer, one byte at a time. -/
def pipe : Nat → Serializer ι → Deserializer ι A C → Except String (Serializer ι × Deserializer ι A C)
  | 0, s, d => .ok (s, d)
  | fuel + 1, s, d =>
    if s.pull_avail then
      match s.pullRun with
      | .error e => .error e
      | .ok (b, s') =>
        match d.push with
        | none => .error "pipe refused byte"
        | some f =>
          match f b with
          | .error e => .error e
          | .ok d' => pipe fuel s' d'
    else .ok (s, d)

theorem pipe_idle_f (fuel : Nat) (j : ι) (d : Deserializer ι A C) :
    pipe fuel ⟨some (j, SInner.top), true, none⟩ d
      = .ok (⟨some (j, SInner.top), true, none⟩, d) := by
  cases fuel <;> simp [pipe, Serializer.pull_avail]

theorem pipe_drain_f :
    ∀ (r : List Nat) (fuel : Nat) (b : Nat) (j : ι) (d : Deserializer ι A C),
      r.length + 1 ≤ fuel →
      pipe fuel ⟨some (j, SInner.queued r), false, some b⟩ d
        = match feedF d (b :: r) with
          | .error e => .error e
          | .ok d' => .ok (⟨some (j, SInner.top), true, none⟩, d') := by
  intro r
  induction r with
  | nil =>
    intro fuel b j d hfuel
    match fuel, hfuel with
    | fuel + 1, _ =>
      have hpr : (⟨some (j, SInner.queued []), false, some b⟩ : Serializer ι).pullRun
          = .ok (b, ⟨some (j, SInner.top), true, none⟩) := by
        simp [Serializer.pullRun, SInner.next]
      simp only [pipe, Serializer.pull_avail, Option.isSome_some, if_true, hpr, feedF]
      cases hp : d.push with
      | none => rfl
      | some f =>
        cases hf : f b with
        | error e => simp only [hf]
        | ok d' =>
          simp only [hf]
          simp [pipe_idle_f, feedF]
  | cons b' r' ih =>
    intro fuel b j d hfuel
    match fuel, hfuel with
    | fuel + 1, hfuel2 =>
      have hpr : (⟨some (j, SInner.queued (b' :: r')), false, some b⟩ : Serializer ι).pullRun
          = .ok (b, ⟨some (j, SInner.queued r'), false, some b'⟩) := by
        simp [Serializer.pullRun, SInner.next]
      simp only [pipe, Serializer.pull_avail, Option.isSome_some, if_true, hpr, feedF]
      cases hp : d.push with
      | none => rfl
      | some f =>
        cases hf : f b with
        | error e => simp only [hf]
        | ok d' =>
          simp only [hf]
          have := ih fuel b' j d'
            (by simp only [List.length_cons] at hfuel2; omega)
          simpa [feedF] using this

/-- Feeding the exact byte stream the decode machine needs, from a running
decode, completes it: the last byte flips the pipe to `pending` with the
decoded value parked in the generator. -/
theorem feedF_run (i : ι) (t : A i) :
    ∀ (bs : List Nat) (s : (C i).DState) (k : Nat) (d : Deserializer ι A C),
      d.deserializer = some ⟨i, DInner.running s k⟩ → d.done = false → d.pending = false →
      decodeSteps (C i).dstep s bs = some (t, bs.length) →
      feedF d bs = .ok ⟨some ⟨i, DInner.ready2 t⟩, false, true, false⟩ := by
  intro bs
  induction bs with
  | nil => intro s k d hslot hdone hpend hdec; cases hdec
  | cons b bs ih =>
    intro s k d hslot hdone hpend hdec
    have hpush : d.push = some (fun x => d.pushRun x) := by
      simp [Deserializer.push, hdone, hpend]
    simp only [feedF, hpush]
    cases hstep : (C i).dstep s b with
    | inl s' =>
      have hbs : decodeSteps (C i).dstep s' bs = some (t, bs.length) := by
        simp only [decodeSteps, hstep] at hdec
        cases hv : decodeSteps (C i).dstep s' bs with
        | none => rw [hv] at hdec; cases hdec
        | some p =>
          rw [hv] at hdec
          simp only [Option.map_some', Option.some.injEq, List.length_cons] at hdec
          obtain ⟨p1, p2⟩ := p
          obtain ⟨h1, h2⟩ := Prod.mk.injEq .. ▸ hdec
          simp only at h1 h2
          rw [h1, show p2 = bs.length by omega]
      have hrun : d.pushRun b
          = .ok ⟨some ⟨i, DInner.running s' (k + 1)⟩, false, false, true⟩ := by
        simp [Deserializer.pushRun, hslot, DInner.nextB, hstep, DInner.done, hdone, hpend]
      rw [hrun]
      exact ih s' (k + 1) _ rfl rfl rfl hbs
    | inr a =>
      have hat : a = t ∧ bs = [] := by
        simp only [decodeSteps, hstep, Option.some.injEq, List.length_cons] at hdec
        obtain ⟨h1, h2⟩ := Prod.mk.injEq .. ▸ hdec
        refine ⟨h1, ?_⟩
        cases bs with
        | nil => rfl
        | cons x xs => simp at h2
      obtain ⟨ha, hbs⟩ := hat
      subst ha; subst hbs
      have hrun : d.pushRun b
          = .ok ⟨some ⟨i, DInner.ready2 a⟩, false, true, false⟩ := by
        simp [Deserializer.pushRun, hslot, DInner.nextB, hstep, DInner.done, hdone, hpend]
      rw [hrun]
      simp [feedF]

/-- The sentinel byte `0` completes a zero-byte decode. -/
theorem feedF_sentinel (i : ι) (t : A i) (d : Deserializer ι A C)
    (hslot : d.deserializer = some ⟨i, DInner.sentinel t⟩)
    (hdone : d.done = false) (hpend : d.pending = false) :
    feedF d [0] = .ok ⟨some ⟨i, DInner.ready2 t⟩, false, true, false⟩ := by
  have hpush : d.push = some (fun x => d.pushRun x) := by
    simp [Deserializer.push, hdone, hpend]
  simp only [feedF, hpush]
  have hrun : d.pushRun 0 = .ok ⟨some ⟨i, DInner.ready2 t⟩, false, true, false⟩ := by
    simp [Deserializer.pushRun, hslot, DInner.nextB, DInner.done, hdone, hpend]
  rw [hrun]

/-- Pinning a fresh suspendable `Deserializer` to type `i`: installs the
generator, kicks it into the decode of the first value, no value ready. -/
theorem Deserializer.pull_pin_new_f (i : ι) :
    Deserializer.pull i (Deserializer.new : Deserializer ι A C)
      = .ok (⟨some ⟨i, freshInner (C i)⟩, false, false, false⟩, none) := by
  have hpin := Deserializer.pullPin_done (d := (Deserializer.new : Deserializer ι A C)) i
    rfl trivial
  rw [Deserializer.pull, hpin]
  rfl

/-- Claiming the pending value from the suspendable `Deserializer`. -/
theorem Deserializer.pull_claim (i : ι) (t : A i) :
    Deserializer.pull i (⟨some ⟨i, DInner.ready2 t⟩, false, true, false⟩ : Deserializer ι A C)
      = .ok (⟨some ⟨i, DInner.ready2 t⟩, false, true, false⟩,
          some (.ok (t, ⟨some ⟨i, DInner.top⟩, true, false, false⟩))) := by
  have hpin : Deserializer.pullPin i
      (⟨some ⟨i, DInner.ready2 t⟩, false, true, false⟩ : Deserializer ι A C)
      = .ok ⟨some ⟨i, DInner.ready2 t⟩, false, true, false⟩ :=
    Deserializer.pullPin_not_done i rfl
  rw [Deserializer.pull, hpin]
  simp only [if_pos rfl]
  have hclaim : Deserializer.pullClaim i
      (⟨some ⟨i, DInner.ready2 t⟩, false, true, false⟩ : Deserializer ι A C)
      = .ok (t, ⟨some ⟨i, DInner.top⟩, true, false, false⟩) := by
    simp [Deserializer.pullClaim, DInner.retrieve]
  rw [hclaim]
  simp

end FamilyRT

end Fringe

/-! ## Concrete codec families (type universes for witnesses)

`TypeId`s are modelled by the index of a codec family. `AOne`/`COne` is the
one-type world `{u8}`; `AUnit`/`CUnit` is `{()}`; `ATwo`/`CTwo` is the
two-type world `{u8, (u8, u8)}` used to exercise type mismatches. -/

@[reducible] def AOne : Unit → Type := fun _ => Nat

def COne : ∀ i : Unit, Codec (AOne i) := fun _ => u8Codec

@[reducible] def AUnit : Unit → Type := fun _ => Unit

def CUnit : ∀ i : Unit, Codec (AUnit i) := fun _ => unitCodec

@[reducible] def ATwo : Bool → Type := fun b => if b then Nat else Fin 256 × Fin 256

def CTwo : ∀ b : Bool, Codec (ATwo b)
  | true => u8Codec
  | false => pairCodec

/-! ## Remaining helper lemmas -/

theorem Fringe.frame_length_pos {β : Type} (c : Codec β) (t : β) :
    (Fringe.frame c t).length ≠ 0 := by
  simpa [List.length_eq_zero] using Fringe.frame_ne_nil c t

theorem Fringe.frame_length_le {β : Type} (c : Codec β) (t : β) :
    (Fringe.frame c t).length ≤ 1 + (c.encode t).length := by
  by_cases h : c.encode t = []
  · simp [Fringe.frame_of_nil h]
  · simp [Fringe.frame_of_ne_nil h]

theorem Fringe.frame_length_lt {β : Type} (c : Codec β) (t : β)
    (h : (c.encode t).length < 2 ^ 64) : (Fringe.frame c t).length < 2 ^ 64 := by
  by_cases he : c.encode t = []
  · rw [Fringe.frame_of_nil he]
    norm_num
  · rw [Fringe.frame_of_ne_nil he]
    exact h

/-- The eager `Serializer::push` buffer is the length-prefixed frame. -/
theorem Buffer.Serializer.pushRun_frame {β : Type} (c : Codec β) (s : Buffer.Serializer) (t : β) :
    s.pushRun c t
      = ⟨some (encodeUsize (Fringe.frame c t).length ++ Fringe.frame c t, 0)⟩ := by
  have hb := Buffer.Serializer.pushRun_buffer c s t
  by_cases h : c.encode t = []
  · rw [Fringe.frame_of_nil h]
    rw [if_pos (by simp [h])] at hb
    cases hs : (s.pushRun c t) with
    | mk buffer => rw [hs] at hb; simp at hb; simp [hb]
  · rw [Fringe.frame_of_ne_nil h]
    rw [if_neg (by simpa [List.length_eq_zero] using h)] at hb
    cases hs : (s.pushRun c t) with
    | mk buffer => rw [hs] at hb; simp at hb; simp [hb]

namespace Buffer

theorem Deserializer.pinState_len {ι : Type} (i : ι) (d : Deserializer ι) :
    (Deserializer.pinState i d).len = d.len := by
  unfold Deserializer.pinState; split <;> rfl

theorem Deserializer.pinState_buffer {ι : Type} (i : ι) (d : Deserializer ι) :
    (Deserializer.pinState i d).buffer = d.buffer := by
  unfold Deserializer.pinState; split <;> rfl

end Buffer

namespace Fringe

theorem Deserializer.pullPin_pending {ι : Type} [DecidableEq ι] {A : ι → Type}
    {C : ∀ i, Codec (A i)} {i : ι} {d d' : Deserializer ι A C}
    (h : d.pullPin i = .ok d') : d'.pending = d.pending := by
  unfold Deserializer.pullPin at h
  split at h
  · split at h
    · cases h
    · split at h
      · cases h
      · cases h
      · injection h with h; rw [← h]
  · injection h with h; rw [← h]

end Fringe

/-! ## Claims -/

/-- C1: Round-trip. For every value `v` of a supported type, pushing `v`
into a `Serializer` (from idle), pulling its bytes one at a time and
pushing each one in order into a `Deserializer` pinned to the same type,
drains the serializer, makes the deserializer's pull available, and the
pull yields a value equal to `v` — for the eager backend (`buffer.rs`) and
the suspendable backend (`fringe.rs`) alike. Availability queries are pure
functions of the state in this embedding, so interleaving them with the
byte transfers (at any pacing) cannot alter the run. The hypothesis is the
Rust type-level fact that the encoding length fits in a `usize`. -/
theorem c1_roundtrip {ι : Type} [DecidableEq ι] {A : ι → Type} (C : ∀ i, Codec (A i))
    (i : ι) (t : A i) (hlen : ((C i).encode t).length < 2 ^ 64) :
    (Buffer.Serializer.push_avail Buffer.Serializer.new = true ∧
     Buffer.Deserializer.pull C i Buffer.Deserializer.new = .ok (⟨[], 0, some i⟩, none) ∧
     ∃ dfin : Buffer.Deserializer ι,
       Buffer.pipe (9 + ((C i).encode t).length) (Buffer.Serializer.new.pushRun (C i) t)
           ⟨[], 0, some i⟩
         = some (Buffer.Serializer.new, dfin) ∧
       dfin.pull_avail = true ∧
       Buffer.Deserializer.pull C i dfin
         = .ok (dfin, some (.ok (t, Buffer.Deserializer.new)))) ∧
    (Fringe.Serializer.push_avail (Fringe.Serializer.new : Fringe.Serializer ι) = true ∧
     Fringe.Deserializer.pull i (Fringe.Deserializer.new : Fringe.Deserializer ι A C)
       = .ok (⟨some ⟨i, Fringe.freshInner (C i)⟩, false, false, false⟩, none) ∧
     ∃ (s1 : Fringe.Serializer ι) (dfin : Fringe.Deserializer ι A C),
       Fringe.Serializer.pushRun C i Fringe.Serializer.new t = .ok s1 ∧
       Fringe.pipe (1 + ((C i).encode t).length) s1
           ⟨some ⟨i, Fringe.freshInner (C i)⟩, false, false, false⟩
         = .ok (⟨some (i, Fringe.SInner.top), true, none⟩, dfin) ∧
       dfin.pull_avail = true ∧
       Fringe.Deserializer.pull i dfin
         = .ok (dfin, some (.ok (t, ⟨some ⟨i, Fringe.DInner.top⟩, true, false, false⟩)))) := by
  constructor
  · refine ⟨rfl, Buffer.Deserializer.pull_pin_new_b C i, ?_⟩
    have hPne : Fringe.frame (C i) t ≠ [] := Fringe.frame_ne_nil (C i) t
    have hPle := Fringe.frame_length_le (C i) t
    have hPlt : (Fringe.frame (C i) t).length < 2 ^ 64 :=
      Fringe.frame_length_lt (C i) t hlen
    refine ⟨⟨Fringe.frame (C i) t, (Fringe.frame (C i) t).length, some i⟩, ?_, ?_, ?_⟩
    · rw [Buffer.Serializer.pushRun_frame]
      have hbuflen :
          (encodeUsize (Fringe.frame (C i) t).length ++ Fringe.frame (C i) t).length
            = 8 + (Fringe.frame (C i) t).length := by
        simp [encodeUsize_length]
      rw [Buffer.pipe_drain_b _ _ 0 _ (by rw [hbuflen]; omega) (by rw [hbuflen]; omega)]
      rw [List.drop_zero, Buffer.feedD_full i _ hPne hPlt]
      rfl
    · have := Fringe.frame_length_pos (C i) t
      simp [Buffer.Deserializer.pull_avail, this]
    · exact Buffer.Deserializer.pull_frame C i t
  · refine ⟨rfl, Fringe.Deserializer.pull_pin_new_f i, ?_⟩
    have hrest : match (Fringe.Serializer.new : Fringe.Serializer ι).serializer with
        | none => True
        | some (_, st) => st = Fringe.SInner.top := trivial
    refine ⟨_, ⟨some ⟨i, Fringe.DInner.ready2 t⟩, false, true, false⟩,
      Fringe.Serializer.pushRun_ok C i t hrest, ?_, rfl,
      Fringe.Deserializer.pull_claim i t⟩
    obtain ⟨b, r, hbr⟩ := List.exists_cons_of_ne_nil (Fringe.frame_ne_nil (C i) t)
    have hfeed : Fringe.feedF (⟨some ⟨i, Fringe.freshInner (C i)⟩, false, false, false⟩ :
          Fringe.Deserializer ι A C) (Fringe.frame (C i) t)
        = .ok ⟨some ⟨i, Fringe.DInner.ready2 t⟩, false, true, false⟩ := by
      by_cases h : (C i).encode t = []
      · have hz := (C i).decode_encode_nil t h
        rw [Fringe.frame_of_nil h, Fringe.freshInner_some hz]
        exact Fringe.feedF_sentinel i t _ rfl rfl rfl
      · obtain ⟨hz, hdec⟩ := (C i).decode_encode_cons t h
        rw [Fringe.frame_of_ne_nil h, Fringe.freshInner_none hz]
        exact Fringe.feedF_run i t ((C i).encode t) (C i).dinit 0 _ rfl rfl rfl hdec
    have hlenfr : r.length + 1 ≤ 1 + ((C i).encode t).length := by
      have := Fringe.frame_length_le (C i) t
      rw [hbr] at this
      simpa using this
    rw [hbr]
    simp only [List.headI, List.tail_cons]
    rw [Fringe.pipe_drain_f r _ b i _ hlenfr]
    rw [← hbr, hfeed]

/-- Witness for C1 at the `u8` codec and value `7`. -/
theorem c1_roundtrip_witness :
    (((COne ()).encode 7).length < 2 ^ 64) ∧
    ((Buffer.Serializer.push_avail Buffer.Serializer.new = true ∧
      Buffer.Deserializer.pull COne () Buffer.Deserializer.new = .ok (⟨[], 0, some ()⟩, none) ∧
      ∃ dfin : Buffer.Deserializer Unit,
        Buffer.pipe (9 + ((COne ()).encode 7).length)
            (Buffer.Serializer.new.pushRun (COne ()) 7) ⟨[], 0, some ()⟩
          = some (Buffer.Serializer.new, dfin) ∧
        dfin.pull_avail = true ∧
        Buffer.Deserializer.pull COne () dfin
          = .ok (dfin, some (.ok (7, Buffer.Deserializer.new)))) ∧
     (Fringe.Serializer.push_avail (Fringe.Serializer.new : Fringe.Serializer Unit) = true ∧
      Fringe.Deserializer.pull () (Fringe.Deserializer.new : Fringe.Deserializer Unit AOne COne)
        = .ok (⟨some ⟨(), Fringe.freshInner (COne ())⟩, false, false, false⟩, none) ∧
      ∃ (s1 : Fringe.Serializer Unit) (dfin : Fringe.Deserializer Unit AOne COne),
        Fringe.Serializer.pushRun COne () Fringe.Serializer.new 7 = .ok s1 ∧
        Fringe.pipe (1 + ((COne ()).encode 7).length) s1
            ⟨some ⟨(), Fringe.freshInner (COne ())⟩, false, false, false⟩
          = .ok (⟨some ((), Fringe.SInner.top), true, none⟩, dfin) ∧
        dfin.pull_avail = true ∧
        Fringe.Deserializer.pull () dfin
          = .ok (dfin, some (.ok (7, ⟨some ⟨(), Fringe.DInner.top⟩, true, false, false⟩))))) :=
  ⟨by norm_num [COne, u8Codec], c1_roundtrip COne () 7 (by norm_num [COne, u8Codec])⟩

/-- C2 counterexample: after `Deserializer::pull::<T>()` has pinned a type
on a fresh suspendable `Deserializer` (a legal call that returns `None`),
the state has `done = false`, `mid = false`, `pending = false` — the pipe
is not idle, not mid (no byte accepted), and not pending, so none of the
three conditions holds, refuting "exactly one of {idle, mid, pending}". -/
theorem c2_counterexample :
    Fringe.Deserializer.pull (C := COne) () Fringe.Deserializer.new
      = .ok (⟨some ⟨(), Fringe.DInner.running () 0⟩, false, false, false⟩, none) ∧
    (⟨some ⟨(), Fringe.DInner.running () 0⟩, false, false, false⟩ :
        Fringe.Deserializer Unit AOne COne).done = false ∧
    (⟨some ⟨(), Fringe.DInner.running () 0⟩, false, false, false⟩ :
        Fringe.Deserializer Unit AOne COne).mid = false ∧
    (⟨some ⟨(), Fringe.DInner.running () 0⟩, false, false, false⟩ :
        Fringe.Deserializer Unit AOne COne).pending = false :=
  ⟨rfl, rfl, rfl, rfl⟩

/-- C2 (amended): across every reachable state of the suspendable
`Deserializer`, at most one of {idle (`done`), `mid`, `pending`} holds —
they are pairwise mutually exclusive. (Exactly-one fails: after a pull has
pinned a type but before any byte arrives, none of the three holds.) -/
theorem c2_exclusive {ι : Type} [DecidableEq ι] {A : ι → Type} {C : ∀ i, Codec (A i)}
    {d : Fringe.Deserializer ι A C} (h : d.Reach) :
    ¬(d.done = true ∧ d.mid = true) ∧ ¬(d.done = true ∧ d.pending = true) ∧
      ¬(d.mid = true ∧ d.pending = true) := by
  have hinv := Fringe.Deserializer.reach_inv_fdes h
  refine ⟨?_, ?_, ?_⟩
  · rintro ⟨h1, h2⟩
    rw [(hinv.1 h1).2.1] at h2
    cases h2
  · rintro ⟨h1, h2⟩
    rw [(hinv.1 h1).1] at h2
    cases h2
  · rintro ⟨h1, h2⟩
    rw [(hinv.2.2.1 h1).2.1] at h2
    cases h2

/-- Witness for C2's amended theorem at a concrete reachable state. -/
theorem c2_exclusive_witness :
    ¬((⟨some ⟨(), Fringe.DInner.running () 0⟩, false, false, false⟩ :
        Fringe.Deserializer Unit AOne COne).done = true ∧
      (⟨some ⟨(), Fringe.DInner.running () 0⟩, false, false, false⟩ :
        Fringe.Deserializer Unit AOne COne).mid = true) ∧
    ¬((⟨some ⟨(), Fringe.DInner.running () 0⟩, false, false, false⟩ :
        Fringe.Deserializer Unit AOne COne).done = true ∧
      (⟨some ⟨(), Fringe.DInner.running () 0⟩, false, false, false⟩ :
        Fringe.Deserializer Unit AOne COne).pending = true) ∧
    ¬((⟨some ⟨(), Fringe.DInner.running () 0⟩, false, false, false⟩ :
        Fringe.Deserializer Unit AOne COne).mid = true ∧
      (⟨some ⟨(), Fringe.DInner.running () 0⟩, false, false, false⟩ :
        Fringe.Deserializer Unit AOne COne).pending = true) :=
  c2_exclusive (Fringe.Deserializer.Reach.pullDecline (i := ())
    Fringe.Deserializer.Reach.new rfl)

/-- C3 counterexample: on the suspendable backend, after a pull call has
pinned a target type (state not `Idle`: `done = false`) and before any
byte is pushed, dropping the `Deserializer` succeeds — the `Drop` assert
`!mid && !pending` passes and the generator unwinds cleanly — refuting
"dropping in any state other than Idle is a fatal error". -/
theorem c3_counterexample :
    Fringe.Deserializer.pull (C := COne) () Fringe.Deserializer.new
      = .ok (⟨some ⟨(), Fringe.DInner.running () 0⟩, false, false, false⟩, none) ∧
    (⟨some ⟨(), Fringe.DInner.running () 0⟩, false, false, false⟩ :
        Fringe.Deserializer Unit AOne COne).done = false ∧
    (⟨some ⟨(), Fringe.DInner.running () 0⟩, false, false, false⟩ :
        Fringe.Deserializer Unit AOne COne).dropOk = true :=
  ⟨rfl, rfl, rfl⟩

/-- C3 (amended): dropping an eager-backend `Deserializer` succeeds iff no
type is pinned (so any pin-to-claim window is fatal there, as claimed);
dropping a suspendable-backend `Deserializer` panics iff it is `mid` or
`pending` — in particular, a pipe that has only pinned a type (no byte
yet) drops cleanly even though it is not idle. -/
theorem c3_drop_characterisation {ι : Type} [DecidableEq ι] {A : ι → Type}
    (C : ∀ i, Codec (A i)) :
    (∀ d : Fringe.Deserializer ι A C, d.Reach → d.dropOk = (!d.mid && !d.pending)) ∧
    (∀ d : Buffer.Deserializer ι, Buffer.Deserializer.Reach C d →
      d.dropOk = d.deserializer.isNone) := by
  constructor
  · intro d h
    have hinv := Fringe.Deserializer.reach_inv_fdes h
    cases hm : d.mid
    · cases hp : d.pending
      · cases hd : d.done
        · obtain ⟨j, st, hj, hfresh⟩ : ∃ j st, d.deserializer = some ⟨j, st⟩ ∧
              ((∃ s, st = Fringe.DInner.running s 0) ∨ (∃ a, st = Fringe.DInner.sentinel a)) := by
            have := hinv.2.2.2 hd hp hm
            match hs : d.deserializer with
            | none => rw [hs] at this; exact absurd this id
            | some ⟨j, st⟩ => rw [hs] at this; exact ⟨j, st, rfl, this⟩
          rcases hfresh with ⟨s, hst⟩ | ⟨a, hst⟩ <;> subst hst <;>
            simp [Fringe.Deserializer.dropOk, hm, hp, hj, Fringe.DInner.killOk]
        · have hrest := (hinv.1 hd).2.2
          match hs : d.deserializer with
          | none => simp [Fringe.Deserializer.dropOk, hm, hp, hs]
          | some ⟨j, st⟩ =>
            rw [hs] at hrest
            simp only at hrest
            subst hrest
            simp [Fringe.Deserializer.dropOk, hm, hp, hs, Fringe.DInner.killOk]
      · simp [Fringe.Deserializer.dropOk, hp]
    · simp [Fringe.Deserializer.dropOk, hm]
  · intro d h
    have hinv := Buffer.Deserializer.reach_inv_bdes h
    match hs : d.deserializer with
    | none =>
      obtain ⟨h1, h2⟩ := hinv hs
      simp [Buffer.Deserializer.dropOk, h1, h2, hs]
    | some j =>
      simp [Buffer.Deserializer.dropOk, hs]

/-- Witness for C3's amended theorem at concrete reachable states. -/
theorem c3_drop_characterisation_witness :
    ((⟨some ⟨(), Fringe.DInner.running () 0⟩, false, false, false⟩ :
        Fringe.Deserializer Unit AOne COne).dropOk
      = (!(⟨some ⟨(), Fringe.DInner.running () 0⟩, false, false, false⟩ :
        Fringe.Deserializer Unit AOne COne).mid &&
         !(⟨some ⟨(), Fringe.DInner.running () 0⟩, false, false, false⟩ :
        Fringe.Deserializer Unit AOne COne).pending)) ∧
    ((Buffer.Deserializer.new : Buffer.Deserializer Unit).dropOk
      = (Buffer.Deserializer.new : Buffer.Deserializer Unit).deserializer.isNone) :=
  ⟨(c3_drop_characterisation COne).1 _
      (Fringe.Deserializer.Reach.pullDecline (i := ()) Fringe.Deserializer.Reach.new rfl),
   (c3_drop_characterisation COne).2 _ Buffer.Deserializer.Reach.new⟩

/-- C4: a `Serializer` may be dropped exactly at rest — `new` is at rest;
a performed push makes drop fatal; a performed `empty()` restores
droppability; the pull that drains the final byte (emptying the look-ahead
slot) restores droppability, and any earlier pull leaves drop fatal. Both
backends. -/
theorem c4_serializer_drop {ι : Type} [DecidableEq ι] {A : ι → Type} (C : ∀ i, Codec (A i)) :
    (∀ s : Fringe.Serializer ι, Fringe.Serializer.Reach C s →
      (s.dropOk = !s.empty_avail ∧
       (∀ (i : ι) (t : A i) s', Fringe.Serializer.pushRun C i s t = .ok s' →
         s'.dropOk = false) ∧
       (∀ s', s.emptyRun = .ok s' → s'.dropOk = true) ∧
       (∀ b s', s.pullRun = .ok (b, s') → (s'.dropOk = true ↔ s'.pull = none)))) ∧
    (∀ s : Buffer.Serializer,
      s.dropOk = !s.empty_avail ∧
      (∀ (β : Type) (c : Codec β) (t : β), (s.pushRun c t).dropOk = false) ∧
      (∀ s', s.empty = some s' → s'.dropOk = true) ∧
      (∀ b s', s.pullRun = some (b, s') → (s'.dropOk = true ↔ s'.buffer = none))) := by
  constructor
  · intro s h
    obtain ⟨hslot, hrest, hq⟩ := Fringe.Serializer.reach_inv_fser C h
    refine ⟨?_, ?_, ?_, ?_⟩
    · cases hd : s.done
      · obtain ⟨j, r, hser⟩ := hq hd
        have : s.pull.isSome = true := by rw [hslot, hd]; rfl
        simp [Fringe.Serializer.dropOk, Fringe.Serializer.empty_avail, hd, hser, this]
      · have hnone : s.pull = none := by
          have hsm : s.pull.isSome = false := by rw [hslot, hd]; rfl
          cases hp : s.pull
          · rfl
          · rw [hp] at hsm; cases hsm
        have h2 := hrest hd
        match hs : s.serializer with
        | none => simp [Fringe.Serializer.dropOk, Fringe.Serializer.empty_avail, hd, hnone, hs]
        | some (j, st) =>
          rw [hs] at h2
          simp only at h2
          subst h2
          simp [Fringe.Serializer.dropOk, Fringe.Serializer.empty_avail, hd, hnone, hs]
    · intro i t s' hpush
      cases hd : s.done
      · obtain ⟨j, r, hser⟩ := hq hd
        by_cases hj : j = i <;>
          simp [Fringe.Serializer.pushRun, hser, hj, Fringe.SInner.push,
            Fringe.SInner.intoStack] at hpush
      · rw [Fringe.Serializer.pushRun_ok C i t (hrest hd)] at hpush
        injection hpush with hpush
        rw [← hpush]
        rfl
    · intro s' hempty
      cases hd : s.done
      · obtain ⟨j, r, hser⟩ := hq hd
        simp [Fringe.Serializer.emptyRun, hd, hser] at hempty
        rw [← hempty]
        rfl
      · simp [Fringe.Serializer.emptyRun, hd] at hempty
        have h2 := hrest hd
        rw [← hempty]
        match hs : s.serializer with
        | none => simp [Fringe.Serializer.dropOk, hd, hs]
        | some (j, st) =>
          rw [hs] at h2
          simp only at h2
          subst h2
          simp [Fringe.Serializer.dropOk, hd, hs]
    · intro b s' hpull
      match hp : s.pull with
      | none => simp [Fringe.Serializer.pullRun, hp] at hpull
      | some ret =>
        have hd : s.done = false := by
          cases hdd : s.done
          · rfl
          · rw [hp, hdd] at hslot; cases hslot
        obtain ⟨j, r, hser⟩ := hq hd
        match r with
        | [] =>
          simp [Fringe.Serializer.pullRun, hp, hd, hser, Fringe.SInner.next] at hpull
          rw [← hpull.2]
          simp [Fringe.Serializer.dropOk]
        | b' :: r' =>
          simp [Fringe.Serializer.pullRun, hp, hd, hser, Fringe.SInner.next] at hpull
          rw [← hpull.2]
          simp [Fringe.Serializer.dropOk]
  · intro s
    refine ⟨?_, ?_, ?_, ?_⟩
    · cases hs : s.buffer <;>
        simp [Buffer.Serializer.dropOk, Buffer.Serializer.empty_avail, hs]
    · intro β c t
      rw [Buffer.Serializer.pushRun_frame]
      rfl
    · intro s' hempty
      unfold Buffer.Serializer.empty at hempty
      split at hempty
      · injection hempty with hempty
        rw [← hempty]
        rfl
      · cases hempty
    · intro b s' _
      simp [Buffer.Serializer.dropOk, Option.isNone_iff_eq_none]

/-- Witness for C4 at concrete states. -/
theorem c4_serializer_drop_witness :
    ((Fringe.Serializer.new : Fringe.Serializer Unit).dropOk
        = !(Fringe.Serializer.new : Fringe.Serializer Unit).empty_avail) ∧
    (Buffer.Serializer.new.pushRun u8Codec 5).dropOk = false :=
  ⟨((c4_serializer_drop COne).1 _ Fringe.Serializer.Reach.new).1,
   ((c4_serializer_drop COne).2 Buffer.Serializer.new).2.1 Nat u8Codec 5⟩

/-- C5: the zero-byte-payload rule. If the codec encodes a value in zero
bytes, both producer sides synthesize the single sentinel byte `0` (the
eager backend with length prefix forced to 1), and both consumer sides
consume exactly that byte and assert it equals `0` before the value is
claimable; any non-empty encoding is passed through unmodified with no
sentinel. -/
theorem c5_sentinel {ι : Type} [DecidableEq ι] {A : ι → Type} (C : ∀ i, Codec (A i))
    (i : ι) (v : A i) :
    ((C i).encode v = [] →
      Fringe.frame (C i) v = [0] ∧
      (Buffer.Serializer.new.pushRun (C i) v).buffer = some (encodeUsize 1 ++ [0], 0) ∧
      Buffer.Deserializer.pullRun C i ⟨[0], 1, some i⟩ = .ok (v, Buffer.Deserializer.new) ∧
      (∀ b, b ≠ 0 →
        Buffer.Deserializer.pullRun C i ⟨[b], 1, some i⟩ = .error "assert sentinel") ∧
      Fringe.DInner.nextB (Fringe.DInner.sentinel v : Fringe.DInner (C i)) 0
        = .ok (Fringe.DInner.ready1 v) ∧
      (∀ b, b ≠ 0 →
        Fringe.DInner.nextB (Fringe.DInner.sentinel v : Fringe.DInner (C i)) b
          = .error "assert sentinel")) ∧
    ((C i).encode v ≠ [] →
      Fringe.frame (C i) v = (C i).encode v ∧
      (Buffer.Serializer.new.pushRun (C i) v).buffer
        = some (encodeUsize ((C i).encode v).length ++ (C i).encode v, 0)) := by
  constructor
  · intro h
    have hz := (C i).decode_encode_nil v h
    refine ⟨Fringe.frame_of_nil h, ?_, ?_, ?_, ?_, ?_⟩
    · rw [Buffer.Serializer.pushRun_buffer, if_pos (by simp [h])]
    · rw [Buffer.Deserializer.pullRun]
      simp only [Codec.decode, hz]
      rfl
    · intro b hb
      rw [Buffer.Deserializer.pullRun]
      simp only [Codec.decode, hz]
      match b, hb with
      | b + 1, _ => rfl
    · simp [Fringe.DInner.nextB, hz]
    · intro b hb
      simp [Fringe.DInner.nextB, hz, hb]
  · intro h
    refine ⟨Fringe.frame_of_ne_nil h, ?_⟩
    rw [Buffer.Serializer.pushRun_buffer,
      if_neg (by simpa [List.length_eq_zero] using h)]

/-- Witness for C5 at the unit codec (zero-byte encoding) and value `()`. -/
theorem c5_sentinel_witness :
    Fringe.frame (CUnit ()) () = [0] ∧
    (Buffer.Serializer.new.pushRun (CUnit ()) ()).buffer = some (encodeUsize 1 ++ [0], 0) ∧
    Buffer.Deserializer.pullRun CUnit () ⟨[0], 1, some ()⟩ = .ok ((), Buffer.Deserializer.new) ∧
    Buffer.Deserializer.pullRun CUnit () ⟨[7], 1, some ()⟩ = .error "assert sentinel" ∧
    Fringe.DInner.nextB (Fringe.DInner.sentinel () : Fringe.DInner (CUnit ())) 0
      = .ok (Fringe.DInner.ready1 ()) ∧
    Fringe.DInner.nextB (Fringe.DInner.sentinel () : Fringe.DInner (CUnit ())) 7
      = .error "assert sentinel" := by
  have h := (c5_sentinel CUnit () ()).1 rfl
  exact ⟨h.1, h.2.1, h.2.2.1, h.2.2.2.1 7 (by norm_num), h.2.2.2.2.1,
    h.2.2.2.2.2 7 (by norm_num)⟩

/-- C6: pushing the `u8` value `200` into an eager-backend `Serializer`
produces exactly the 9 bytes `[1,0,0,0,0,0,0,0,200]` — an 8-byte
little-endian length prefix encoding `1` followed by the payload byte
`200` — and feeding those bytes into a `Deserializer` pinned to `u8`
makes a pull available that returns `200`. -/
theorem c6_u8_scenario :
    (Buffer.Serializer.new.pushRun u8Codec 200).buffer
      = some ([1, 0, 0, 0, 0, 0, 0, 0, 200], 0) ∧
    encodeUsize 1 = [1, 0, 0, 0, 0, 0, 0, 0] ∧
    ([1, 0, 0, 0, 0, 0, 0, 0, 200] : List Nat).length = 9 ∧
    Buffer.Deserializer.pull COne () Buffer.Deserializer.new = .ok (⟨[], 0, some ()⟩, none) ∧
    Buffer.feedD (⟨[], 0, some ()⟩ : Buffer.Deserializer Unit) [1, 0, 0, 0, 0, 0, 0, 0, 200]
      = some ⟨[200], 1, some ()⟩ ∧
    (⟨[200], 1, some ()⟩ : Buffer.Deserializer Unit).pull_avail = true ∧
    Buffer.Deserializer.pull COne () ⟨[200], 1, some ()⟩
      = .ok (⟨[200], 1, some ()⟩, some (.ok (200, Buffer.Deserializer.new))) :=
  ⟨rfl, rfl, rfl, rfl, rfl, rfl, rfl⟩

/-- C7: across every reachable state of the suspendable `Serializer`, the
one-byte look-ahead slot is occupied iff the pipe is not idle (the backend
signals exhaustion by the very transition that clears the slot and flips
`done`); immediately after a performed push the slot holds the frame's
first byte with pull available and push not; the pull performed when the
generator's queue is exhausted empties the slot, returns the pipe to idle,
and makes it droppable. -/
theorem c7_lookahead {ι : Type} [DecidableEq ι] {A : ι → Type} (C : ∀ i, Codec (A i))
    {s : Fringe.Serializer ι} (h : Fringe.Serializer.Reach C s) :
    (s.pull.isSome = !s.done) ∧
    (∀ (i : ι) (t : A i) (s' : Fringe.Serializer ι), s.done = true →
      Fringe.Serializer.pushRun C i s t = .ok s' →
      s'.pull = some (Fringe.frame (C i) t).headI ∧ s'.pull_avail = true ∧
        s'.push_avail = false) ∧
    (∀ (j : ι) (b : Nat) (s' : Fringe.Serializer ι),
      s.serializer = some (j, Fringe.SInner.queued []) → s.pullRun = .ok (b, s') →
      s'.pull = none ∧ s'.done = true ∧ s'.dropOk = true) := by
  obtain ⟨hslot, hrest, hq⟩ := Fringe.Serializer.reach_inv_fser C h
  refine ⟨hslot, ?_, ?_⟩
  · intro i t s' hdone hpush
    rw [Fringe.Serializer.pushRun_ok C i t (hrest hdone)] at hpush
    injection hpush with hpush
    rw [← hpush]
    exact ⟨rfl, rfl, rfl⟩
  · intro j b s' hser hpull
    have hdone : s.done = false := by
      cases hd : s.done
      · rfl
      · have h2 := hrest hd
        rw [hser] at h2
        cases h2
    have hp : ∃ ret, s.pull = some ret := by
      cases hp2 : s.pull
      · rw [hp2, hdone] at hslot; cases hslot
      · exact ⟨_, rfl⟩
    obtain ⟨ret, hp⟩ := hp
    simp [Fringe.Serializer.pullRun, hp, hdone, hser, Fringe.SInner.next] at hpull
    rw [← hpull.2]
    exact ⟨rfl, rfl, rfl⟩

/-- Witness for C7 at the reachable state just after pushing `5`. -/
theorem c7_lookahead_witness :
    ((⟨some ((), Fringe.SInner.queued []), false, some 5⟩ :
        Fringe.Serializer Unit).pull.isSome
      = !(⟨some ((), Fringe.SInner.queued []), false, some 5⟩ :
        Fringe.Serializer Unit).done) ∧
    (∀ (i : Unit) (t : AOne i) (s' : Fringe.Serializer Unit),
      (⟨some ((), Fringe.SInner.queued []), false, some 5⟩ :
        Fringe.Serializer Unit).done = true →
      Fringe.Serializer.pushRun COne i
          ⟨some ((), Fringe.SInner.queued []), false, some 5⟩ t = .ok s' →
      s'.pull = some (Fringe.frame (COne i) t).headI ∧ s'.pull_avail = true ∧
        s'.push_avail = false) ∧
    (∀ (j : Unit) (b : Nat) (s' : Fringe.Serializer Unit),
      (⟨some ((), Fringe.SInner.queued []), false, some 5⟩ :
        Fringe.Serializer Unit).serializer = some (j, Fringe.SInner.queued []) →
      Fringe.Serializer.pullRun ⟨some ((), Fringe.SInner.queued []), false, some 5⟩
        = .ok (b, s') →
      s'.pull = none ∧ s'.done = true ∧ s'.dropOk = true) :=
  c7_lookahead COne
    (Fringe.Serializer.Reach.push (i := ()) (t := 5) Fringe.Serializer.Reach.new rfl rfl)

/-- C8 counterexample: on the suspendable backend, with a `(u8, u8)` decode
mid-flight (one byte accepted), calling `pull::<u8>()` — a different type —
returns `None` and leaves the state untouched: the misuse is silently
ignored, not a panic, refuting "fails fast (panics) … in both backends". -/
theorem c8_counterexample :
    Fringe.Deserializer.pull (C := CTwo) false Fringe.Deserializer.new
      = .ok (⟨some ⟨false, Fringe.DInner.running (none : Option Nat) 0⟩,
          false, false, false⟩, none) ∧
    Fringe.Deserializer.pushRun
        (⟨some ⟨false, Fringe.DInner.running (none : Option Nat) 0⟩, false, false, false⟩ :
          Fringe.Deserializer Bool ATwo CTwo) 7
      = .ok ⟨some ⟨false, Fringe.DInner.running (some 7) 1⟩, false, false, true⟩ ∧
    (⟨some ⟨false, Fringe.DInner.running (some 7) 1⟩, false, false, true⟩ :
        Fringe.Deserializer Bool ATwo CTwo).mid = true ∧
    Fringe.Deserializer.pull (C := CTwo) true
        ⟨some ⟨false, Fringe.DInner.running (some 7) 1⟩, false, false, true⟩
      = .ok (⟨some ⟨false, Fringe.DInner.running (some 7) 1⟩, false, false, true⟩, none) :=
  ⟨rfl, rfl, rfl, rfl⟩

/-- C8 (amended): pulling as a type different from the pinned one is a
panic on the eager backend whenever a type is pinned; on the suspendable
backend it panics only when a decoded value is pending (the claim
closure's downcast `unwrap`), while mid-decode (or merely pinned) the
wrong-typed pull returns `None` with no effect. -/
theorem c8_wrong_type {ι : Type} [DecidableEq ι] {A : ι → Type} (C : ∀ i, Codec (A i)) :
    (∀ (d : Buffer.Deserializer ι) (i j : ι), d.deserializer = some j → j ≠ i →
      Buffer.Deserializer.pull C i d = .error "assert type mismatch") ∧
    (∀ (d : Fringe.Deserializer ι A C) (i j : ι) (st : Fringe.DInner (C j)),
      d.done = false → d.pending = true → d.deserializer = some ⟨j, st⟩ → j ≠ i →
      Fringe.Deserializer.pull i d = .ok (d, some (.error "downcast unwrap"))) ∧
    (∀ (d : Fringe.Deserializer ι A C) (i : ι), d.done = false → d.pending = false →
      Fringe.Deserializer.pull i d = .ok (d, none)) := by
  refine ⟨?_, ?_, ?_⟩
  · intro d i j hdj hne
    have hpin : Buffer.Deserializer.pinState i d = d := by
      unfold Buffer.Deserializer.pinState
      rw [if_neg (by simp [hdj])]
    unfold Buffer.Deserializer.pull
    rw [hpin, hdj]
    simp [hne]
  · intro d i j st hdone hpend hslot hne
    rw [Fringe.Deserializer.pull, Fringe.Deserializer.pullPin_not_done i hdone]
    simp only [hpend, if_true]
    unfold Fringe.Deserializer.pullClaim
    simp [hslot, hne]
  · intro d i hdone hpend
    rw [Fringe.Deserializer.pull, Fringe.Deserializer.pullPin_not_done i hdone]
    simp [hpend]

/-- Witness for C8's amended theorem at concrete states over the two-type
world `{u8, (u8, u8)}`. -/
theorem c8_wrong_type_witness :
    Buffer.Deserializer.pull CTwo true ⟨[], 0, some false⟩ = .error "assert type mismatch" ∧
    Fringe.Deserializer.pull (C := CTwo) true
        ⟨some ⟨false, Fringe.DInner.ready2 ((0, 0) : Fin 256 × Fin 256)⟩, false, true, false⟩
      = .ok (⟨some ⟨false, Fringe.DInner.ready2 ((0, 0) : Fin 256 × Fin 256)⟩,
          false, true, false⟩, some (.error "downcast unwrap")) ∧
    Fringe.Deserializer.pull (C := CTwo) true
        ⟨some ⟨false, Fringe.DInner.running (some 7) 1⟩, false, false, true⟩
      = .ok (⟨some ⟨false, Fringe.DInner.running (some 7) 1⟩, false, false, true⟩, none) :=
  ⟨(c8_wrong_type CTwo).1 ⟨[], 0, some false⟩ true false rfl (by decide),
   (c8_wrong_type CTwo).2.1 _ true false _ rfl rfl rfl (by decide),
   (c8_wrong_type CTwo).2.2 _ true rfl rfl⟩

/-- C9: for each of the six public operations of each backend, the
side-effect-free availability query agrees with whether the operation
hands out a closure (`Some`) — for the operations that can themselves
panic on a type mismatch, whenever the call returns at all. -/
theorem c9_avail_agree :
    (∀ (β : Type) (c : Codec β) (s : Buffer.Serializer),
      (Buffer.Serializer.push c s).isSome = s.push_avail) ∧
    (∀ s : Buffer.Serializer, (Buffer.Serializer.pull s).isSome = s.pull_avail) ∧
    (∀ s : Buffer.Serializer, (Buffer.Serializer.empty s).isSome = s.empty_avail) ∧
    (∀ (ι : Type) (inst : DecidableEq ι) (A : ι → Type) (C : ∀ i, Codec (A i)) (i : ι)
        (d d' : Buffer.Deserializer ι) (r : Option (Except String (A i × Buffer.Deserializer ι))),
      Buffer.Deserializer.pull C i d = .ok (d', r) → r.isSome = d.pull_avail) ∧
    (∀ (ι : Type) (d : Buffer.Deserializer ι), (Buffer.Deserializer.push d).isSome = d.push_avail) ∧
    (∀ (ι : Type) (d : Buffer.Deserializer ι), (Buffer.Deserializer.empty d).isSome = d.empty_avail) ∧
    (∀ (ι : Type) (inst : DecidableEq ι) (A : ι → Type) (C : ∀ i, Codec (A i)) (i : ι)
        (s : Fringe.Serializer ι), (Fringe.Serializer.pushOp C i s).isSome = s.push_avail) ∧
    (∀ (ι : Type) (s : Fringe.Serializer ι), (Fringe.Serializer.pullOp s).isSome = s.pull_avail) ∧
    (∀ (ι : Type) (s : Fringe.Serializer ι), (Fringe.Serializer.emptyOp s).isSome = s.empty_avail) ∧
    (∀ (ι : Type) (inst : DecidableEq ι) (A : ι → Type) (C : ∀ i, Codec (A i)) (i : ι)
        (d d' : Fringe.Deserializer ι A C)
        (r : Option (Except String (A i × Fringe.Deserializer ι A C))),
      Fringe.Deserializer.pull i d = .ok (d', r) → r.isSome = d.pull_avail) ∧
    (∀ (ι : Type) (inst : DecidableEq ι) (A : ι → Type) (C : ∀ i, Codec (A i))
        (d : Fringe.Deserializer ι A C), (Fringe.Deserializer.push d).isSome = d.push_avail) ∧
    (∀ (ι : Type) (inst : DecidableEq ι) (A : ι → Type) (C : ∀ i, Codec (A i))
        (d : Fringe.Deserializer ι A C), (Fringe.Deserializer.empty d).isSome = d.empty_avail) := by
  refine ⟨?_, ?_, ?_, ?_, ?_, ?_, ?_, ?_, ?_, ?_, ?_, ?_⟩
  · intro β c s
    cases hs : s.buffer <;>
      simp [Buffer.Serializer.push, Buffer.Serializer.push_avail, hs]
  · intro s
    cases hs : s.buffer <;>
      simp [Buffer.Serializer.pull, Buffer.Serializer.pull_avail, hs]
  · intro s
    cases hs : s.buffer <;>
      simp [Buffer.Serializer.empty, Buffer.Serializer.empty_avail, hs]
  · intro ι inst A C i d d' r h
    have hav : d.pull_avail = true ↔ (d.len ≠ 0 ∧ d.buffer.length = d.len) := by
      simp [Buffer.Deserializer.pull_avail]
    unfold Buffer.Deserializer.pull at h
    split at h
    · cases h
    · split at h
      · split at h
        · rename_i hc
          injection h with h
          have h2 := congrArg Prod.snd h
          simp only at h2
          rw [← h2]
          rw [Buffer.Deserializer.pinState_len, Buffer.Deserializer.pinState_buffer] at hc
          simp [hav.mpr hc]
        · rename_i hc
          injection h with h
          have h2 := congrArg Prod.snd h
          simp only at h2
          rw [← h2]
          rw [Buffer.Deserializer.pinState_len, Buffer.Deserializer.pinState_buffer] at hc
          cases hb : d.pull_avail
          · rfl
          · exact absurd (hav.mp hb) hc
      · cases h
  · intro ι d
    have hav : d.push_avail = true
        ↔ (d.deserializer.isSome ∧ (d.buffer.length ≠ d.len ∨ d.len = 0)) := by
      simp [Buffer.Deserializer.push_avail]
    by_cases hc : d.deserializer.isSome ∧ (d.buffer.length ≠ d.len ∨ d.len = 0)
    · rw [Buffer.Deserializer.push, if_pos hc, Option.isSome_some, (hav.mpr hc)]
    · rw [Buffer.Deserializer.push, if_neg hc, Option.isSome_none]
      cases hb : d.push_avail
      · rfl
      · exact absurd (hav.mp hb) hc
  · intro ι d
    have hav : d.empty_avail = true
        ↔ (¬d.buffer.isEmpty ∨ d.len ≠ 0 ∨ d.deserializer.isSome) := by
      simp [Buffer.Deserializer.empty_avail]
      tauto
    by_cases hc : ¬d.buffer.isEmpty ∨ d.len ≠ 0 ∨ d.deserializer.isSome
    · rw [Buffer.Deserializer.empty, if_pos hc, Option.isSome_some, (hav.mpr hc)]
    · rw [Buffer.Deserializer.empty, if_neg hc, Option.isSome_none]
      cases hb : d.empty_avail
      · rfl
      · exact absurd (hav.mp hb) hc
  · intro ι inst A C i s
    cases hd : s.done <;>
      simp [Fringe.Serializer.pushOp, Fringe.Serializer.push_avail, hd]
  · intro ι s
    cases hp : s.pull <;>
      simp [Fringe.Serializer.pullOp, Fringe.Serializer.pull_avail, hp]
  · intro ι s
    by_cases hc : !s.done || s.pull.isSome
    · rw [Fringe.Serializer.emptyOp]
      rw [if_pos (by simpa using hc), Option.isSome_some]
      simp [Fringe.Serializer.empty_avail, hc]
    · rw [Fringe.Serializer.emptyOp]
      rw [if_neg (by simpa using hc), Option.isSome_none]
      simp only [Fringe.Serializer.empty_avail]
      simp at hc
      simp [hc.1, hc.2]
  · intro ι inst A C i d d' r h
    obtain ⟨hpin, hr⟩ := Fringe.Deserializer.pull_ok_parts h
    have hpend := Fringe.Deserializer.pullPin_pending hpin
    rw [hr, hpend]
    cases hp : d.pending <;>
      simp [Fringe.Deserializer.pull_avail, hp]
  · intro ι inst A C d
    cases hd : d.done <;> cases hp : d.pending <;>
      simp [Fringe.Deserializer.push, Fringe.Deserializer.push_avail, hd, hp]
  · intro ι inst A C d
    cases hm : d.mid <;> cases hp : d.pending <;>
      simp [Fringe.Deserializer.empty, Fringe.Deserializer.empty_avail, hm, hp]

/-- Witness for C9 at concrete states. -/
theorem c9_avail_agree_witness :
    (Buffer.Serializer.push u8Codec Buffer.Serializer.new).isSome
      = Buffer.Serializer.new.push_avail ∧
    (none : Option (Except String (AOne () × Buffer.Deserializer Unit))).isSome
      = (Buffer.Deserializer.new : Buffer.Deserializer Unit).pull_avail ∧
    (none : Option (Except String (AOne () × Fringe.Deserializer Unit AOne COne))).isSome
      = (Fringe.Deserializer.new : Fringe.Deserializer Unit AOne COne).pull_avail :=
  ⟨c9_avail_agree.1 Nat u8Codec Buffer.Serializer.new,
   c9_avail_agree.2.2.2.1 Unit instDecidableEqPUnit AOne COne () Buffer.Deserializer.new
     ⟨[], 0, some ()⟩ none rfl,
   c9_avail_agree.2.2.2.2.2.2.2.2.2.1 Unit instDecidableEqPUnit AOne COne ()
     Fringe.Deserializer.new ⟨some ⟨(), Fringe.DInner.running () 0⟩, false, false, false⟩
     none rfl⟩

/-- C10: across every reachable state of the eager `Serializer`, a held
buffer is at least 9 bytes (word prefix plus at least one payload byte)
and the cursor is strictly in bounds, so every performed pull indexes in
bounds — the out-of-bounds branch is unreachable. -/
theorem c10_cursor_in_bounds {s : Buffer.Serializer} (h : Buffer.Serializer.Reach s)
    {buf : List Nat} {idx : Nat} (hb : s.buffer = some (buf, idx)) :
    9 ≤ buf.length ∧ idx < buf.length ∧
      ∃ b s', s.pullRun = some (b, s') := by
  obtain ⟨h9, hlt⟩ := Buffer.Serializer.reach_inv_bser h buf idx hb
  exact ⟨h9, hlt, Buffer.Serializer.reach_pullRun_some h hb⟩

/-- Witness for C10 at the reachable state just after pushing the `u8`
value `3`. -/
theorem c10_cursor_in_bounds_witness :
    9 ≤ ([1, 0, 0, 0, 0, 0, 0, 0, 3] : List Nat).length ∧
    0 < ([1, 0, 0, 0, 0, 0, 0, 0, 3] : List Nat).length ∧
    ∃ b s', Buffer.Serializer.pullRun
        (Buffer.Serializer.new.pushRun u8Codec 3) = some (b, s') :=
  c10_cursor_in_bounds
    (Buffer.Serializer.Reach.push u8Codec 3 Buffer.Serializer.Reach.new rfl) rfl
